import Mathlib

/-!
Shallow embedding of the vibeline pipeline framework
(`pipeline_framework/`): pipeline definition (`core.py`), execution
engine (`engine.py`, `models.py`), trigger monitor dispatch
(`monitor.py`) and the cron / file / webhook triggers
(`triggers/cron.py`, `triggers/file.py`, `triggers/webhook.py`).

Python dicts are modelled as insertion-ordered association lists,
exceptions as `Except` / explicit error values, and mutation as
explicit state passing.  Machine-independent values (step results,
times) are modelled as `Nat`.
-/

namespace PipelineFramework

/-! ## Python dict operations on insertion-ordered association lists -/

/-- Python `d[k]` lookup (first matching key; keys are unique in real dicts). -/
def dictGet {α : Type} (d : List (String × α)) (k : String) : Option α :=
  match d with
  | [] => none
  | (k', v) :: rest => if k' = k then some v else dictGet rest k

/-- Python `k in d`. -/
def dictContains {α : Type} (d : List (String × α)) (k : String) : Bool :=
  (dictGet d k).isSome

/-- Python `d[k] = v`: overwrite in place if the key exists, else append
(dicts preserve insertion order). -/
def dictSet {α : Type} (d : List (String × α)) (k : String) (v : α) : List (String × α) :=
  match d with
  | [] => [(k, v)]
  | (k', v') :: rest => if k' = k then (k', v) :: rest else (k', v') :: dictSet rest k v

/-- Python `d.setdefault(k, v)` (the resulting dict). -/
def dictSetdefault {α : Type} (d : List (String × α)) (k : String) (v : α) : List (String × α) :=
  if dictContains d k then d else d ++ [(k, v)]

/-- Python `set.add` on a set modelled as a duplicate-free list. -/
def setAdd (s : List String) (x : String) : List String :=
  if x ∈ s then s else s ++ [x]

/-! ## Data model (`models.py`, `core.py`, `errors.py`) -/

/-- Models `models.PipelineRunContext`: per-run mutable state.  `results` is the
write-once map populated by successfully completed steps, in arrival
order. -/
structure PipelineRunContext where
  run_id : String
  pipeline_name : String
  results : List (String × Nat)
  parameters : List (String × String)
deriving DecidableEq

/-- The framework's exceptions (`errors.py`, plus Python builtins used by
the code: `ValueError` from `core.py` / `Pipeline.get_step`, and
`NameError` raised by Python name resolution). -/
inductive PyError where
  | stepExecution (step_name : String) (original : String)
  | cyclicDependency (pipeline_name : String) (cycles : List (List String))
  | valueError (msg : String)
  | nameError (nm : String)
deriving DecidableEq

/-- Models `models.Step`: a named unit whose function takes the run context and
returns a result or raises (modelled by `Except`; the payload is the
exception message). -/
structure Step where
  name : String
  func : PipelineRunContext → Except String Nat

/-- Models `models.Step.execute`: run the function; on success write the result
under the step's name and return it; on failure wrap the original
exception in `StepExecutionError` carrying the step's name.  The
returned context is the state of the (mutated) Python context. -/
def Step.execute (s : Step) (context : PipelineRunContext) :
    Except PyError (Nat × PipelineRunContext) :=
  match s.func context with
  | .ok result => .ok (result, { context with results := dictSet context.results s.name result })
  | .error e => .error (.stepExecution s.name e)

/-- Models `core.Pipeline`: name, name→Step map, forward dependency adjacency
(step → the `set(depends_on)` recorded for it) and reverse adjacency. -/
structure Pipeline where
  name : String
  steps : List (String × Step)
  dependencies : List (String × List String)
  reverse_dependencies : List (String × List String)

/-- Errors raised by `Pipeline.add_step` (both are `ValueError` in the
code; the two distinct raise sites are modelled as distinct
constructors). -/
inductive AddStepError where
  | duplicateName (step_name : String)
  | unknownDependency (step_name : String) (dep_name : String)
deriving DecidableEq

/-- The validation loop of `Pipeline.add_step`: for each name in
`depends_on`, fail if it is not a registered step, else add the reverse
edge via `setdefault(dep, set()).add(step.name)`.  Mutations made before
a failure are kept (Python raises mid-loop), so the partially updated
reverse map is returned alongside the error. -/
def addRevEdges (stepName : String) (steps : List (String × Step)) :
    List String → List (String × List String) →
    List (String × List String) × Option AddStepError
  | [], rev => (rev, none)
  | dep :: rest, rev =>
    if dictContains steps dep then
      addRevEdges stepName steps rest
        (dictSet rev dep (setAdd ((dictGet rev dep).getD []) stepName))
    else
      (rev, some (.unknownDependency stepName dep))

/-- Models `core.Pipeline.add_step`: duplicate-name check, then insertion of the
step, its dependency set and its reverse-adjacency entry, then the
dependency-validation loop.  Returns the pipeline state after the call
together with the raised error, if any (the state reflects all
mutations made before the raise, exactly as in the Python code). -/
def Pipeline.add_step (p : Pipeline) (step : Step) (depends_on : List String) :
    Pipeline × Option AddStepError :=
  if dictContains p.steps step.name then
    (p, some (.duplicateName step.name))
  else
    let steps' := dictSet p.steps step.name step
    let deps' := dictSet p.dependencies step.name depends_on.dedup
    let rev0 := dictSetdefault p.reverse_dependencies step.name []
    match addRevEdges step.name steps' depends_on rev0 with
    | (rev', err) =>
      ({ name := p.name, steps := steps', dependencies := deps',
         reverse_dependencies := rev' }, err)

/-- Models `core.Pipeline.get_step` (raises `ValueError` when absent; the `none`
case models the raise). -/
def Pipeline.get_step (p : Pipeline) (nm : String) : Option Step :=
  dictGet p.steps nm

/-! ## Dependency graph (`engine.py`) -/

/-- The node list of `_build_dependency_graph`: one node per step. -/
def Pipeline.nodes (p : Pipeline) : List String :=
  p.steps.map Prod.fst

/-- The edge list of `_build_dependency_graph`: one edge
dependency→dependent per recorded dependency whose dependency name is a
registered step (unknown names are skipped with a warning). -/
def Pipeline.edges (p : Pipeline) : List (String × String) :=
  p.dependencies.flatMap
    (fun x => (x.2.filter (fun d => dictContains p.steps d)).map (fun d => (d, x.1)))

/-- A node of `remaining` with no incoming edge from `remaining` (the
eligibility test of Kahn's algorithm, which `networkx.topological_sort`
implements). -/
def noIncoming (remaining : List String) (edges : List (String × String)) (n : String) : Bool :=
  ! remaining.any (fun m => decide ((m, n) ∈ edges))

/-- Kahn's algorithm with explicit fuel: repeatedly emit an eligible
node and remove it.  Stops early (returning a short list) when no node
is eligible, i.e. when the remaining subgraph is cyclic. -/
def kahnAux (edges : List (String × String)) : Nat → List String → List String
  | 0, _ => []
  | fuel + 1, remaining =>
    match remaining.find? (noIncoming remaining edges) with
    | none => []
    | some n => n :: kahnAux edges fuel (remaining.erase n)

/-- Models `networkx.topological_sort` on the built graph, modelled by Kahn's
algorithm (the relative order among simultaneously eligible nodes is an
implementation detail on both sides). -/
def topologicalSort (nodes : List String) (edges : List (String × String)) : List String :=
  kahnAux edges nodes.length nodes

/-- Models `networkx.is_directed_acyclic_graph`, modelled as: the topological
sort covers every node.  Theorems `cycle_not_dag` and `acyclic_dag`
below prove this coincides with the absence of directed cycles, which
is the documented meaning of the networkx function. -/
def isDirectedAcyclicGraph (nodes : List String) (edges : List (String × String)) : Bool :=
  (topologicalSort nodes edges).length = nodes.length

/-- Consecutive elements are joined by edges:
`edgeSeq edges [a, b, c] = (a,b) ∈ edges && (b,c) ∈ edges`. -/
def edgeSeq (edges : List (String × String)) : List String → Bool
  | [] => true
  | [_] => true
  | a :: b :: rest => decide ((a, b) ∈ edges) && edgeSeq edges (b :: rest)

/-- An elementary (simple) directed cycle, written as the ordered list
of its distinct nodes: consecutive nodes are joined by edges and an
edge closes the cycle from the last node back to the first. -/
def isCycleB (edges : List (String × String)) (c : List String) : Bool :=
  match c with
  | [] => false
  | h :: _ => decide c.Nodup && edgeSeq edges (c ++ [h])

/-- Cut a list at the first occurrence of `m` (inclusive); a proof
device used to extract an elementary cycle from a walk. -/
def cutAt (m : String) : List String → List String
  | [] => []
  | x :: rest => if x = m then [x] else x :: cutAt m rest

/-- Modelled from the networkx documentation: `nx.simple_cycles` (which
`_get_execution_order` calls; networkx is an external library, not part
of this repository) enumerates every elementary cycle of the graph.
Modelled as filtering all candidate vertex sequences, so each cycle may
appear under several rotations. -/
def simple_cycles (nodes : List String) (edges : List (String × String)) :
    List (List String) :=
  (nodes.sublists.flatMap List.permutations').filter (isCycleB edges)

/-! ## Execution engine (`engine.py`) -/

/-- Models `PipelineExecutionEngine._get_execution_order`: build the graph; if
it is not acyclic raise `CyclicDependencyError` carrying every detected
cycle; else return a topological order. -/
def PipelineExecutionEngine.get_execution_order (p : Pipeline) :
    Except PyError (List String) :=
  if isDirectedAcyclicGraph p.nodes p.edges then
    .ok (topologicalSort p.nodes p.edges)
  else
    .error (.cyclicDependency p.name (simple_cycles p.nodes p.edges))

/-- The step loop of `PipelineExecutionEngine.run`.  Returns the list of
step names whose `execute` was invoked (the execution trace) together
with either the final context or the raised error plus the context
state at the moment of the raise.  A failed `get_step` lookup raises
`ValueError` outside the per-step `try` (dead in practice: the order
only contains registered steps). -/
def runSteps (p : Pipeline) :
    List String → PipelineRunContext → List String →
    List String × Except (PyError × PipelineRunContext) PipelineRunContext
  | [], ctx, trace => (trace, .ok ctx)
  | nm :: rest, ctx, trace =>
    match p.get_step nm with
    | none =>
      (trace, .error (.valueError ("Step '" ++ nm ++ "' not found in pipeline '" ++ p.name ++ "'."), ctx))
    | some step =>
      match step.execute ctx with
      | .ok x => runSteps p rest x.2 (trace ++ [nm])
      | .error e => (trace ++ [nm], .error (e, ctx))

/-- The fresh context created at the top of `run` (`run_id` generation
from `uuid` is modelled by the caller supplying the id). -/
def initContext (p : Pipeline) (run_id : String) (parameters : List (String × String)) :
    PipelineRunContext :=
  { run_id := run_id, pipeline_name := p.name, results := [], parameters := parameters }

/-- Models `PipelineExecutionEngine.run`: create the context, compute the
execution order (raising `CyclicDependencyError` before any step runs
if the graph is cyclic), then execute the steps in order, fail-fast.
First component: the execution trace; second: the outcome. -/
def PipelineExecutionEngine.run (p : Pipeline) (run_id : String)
    (parameters : List (String × String)) :
    List String × Except (PyError × PipelineRunContext) PipelineRunContext :=
  let context := initContext p run_id parameters
  match PipelineExecutionEngine.get_execution_order p with
  | .error e => ([], .error (e, context))
  | .ok order => runSteps p order context []

/-- Well-formedness maintained by `Pipeline()` + `add_step`: step-map
keys are unique, every step is stored under its own name, and every
dependency-map key is a registered step. -/
def Pipeline.wf (p : Pipeline) : Prop :=
  (p.steps.map Prod.fst).Nodup ∧
  (∀ x ∈ p.steps, x.2.name = x.1) ∧
  (∀ x ∈ p.dependencies, x.1 ∈ p.nodes)

instance (p : Pipeline) : Decidable p.wf := by
  unfold Pipeline.wf
  infer_instance

/-! ## Triggers (`triggers/base.py`, `triggers/cron.py`) -/

/-- Models `base.TriggerRunInfo`: the handoff value naming the target pipeline,
its parameters and the originating trigger. -/
structure TriggerRunInfo where
  pipeline_name : String
  parameters : List (String × String)
  trigger_id : String
deriving DecidableEq

/-- Models `cron.CronTrigger`: schedule config plus the mutable
"last scheduled fire time" state.  Times are modelled as `Nat` (UTC
seconds); the cron expression is modelled by the `sched` parameter of
`check` (croniter is an external library): `sched t` is the next
scheduled instant strictly after `t`. -/
structure CronTrigger where
  trigger_id : String
  pipeline_name : String
  last_scheduled_fire_time : Nat
deriving DecidableEq

/-- Models `cron.CronTrigger.check`: compute the next scheduled instant
strictly after the last recorded fire
(`croniter(expr, last).get_next()`); if the current time has reached
it, advance the state to that instant and return one `TriggerRunInfo`
whose parameters carry the scheduled fire time, else return `None` with
the state unchanged. -/
def CronTrigger.check (sched : Nat → Nat) (t : CronTrigger) (now : Nat) :
    Option TriggerRunInfo × CronTrigger :=
  let next_fire_time := sched t.last_scheduled_fire_time
  if next_fire_time ≤ now then
    (some { pipeline_name := t.pipeline_name,
            parameters := [("trigger_id", t.trigger_id),
                           ("scheduled_fire_time_utc", toString next_fire_time)],
            trigger_id := t.trigger_id },
     { t with last_scheduled_fire_time := next_fire_time })
  else
    (none, t)

/-! ## Filesystem trigger (`triggers/file.py`)

Python `str` is modelled as `List Char`; `os.path.abspath` (an external
library call) is modelled as the identity, i.e. paths are taken to be
already absolute. -/

/-- The watchdog event kinds the handler forwards
(`FileCreatedEvent` / `FileModifiedEvent`; anything else is `other`). -/
inductive FsEventKind where
  | created
  | modified
  | other
deriving DecidableEq

/-- A watchdog file-system event: its kind and source path. -/
structure FsEvent where
  kind : FsEventKind
  src_path : List Char
deriving DecidableEq

/-- Models `os.path.dirname`, per its documented behaviour: everything up to
the last path separator, with trailing separators stripped unless the
result consists only of separators. -/
def pyDirname (s : List Char) : List Char :=
  let headRev := s.reverse.dropWhile (fun c => c ≠ '/')
  if headRev.all (fun c => c = '/') then headRev.reverse
  else ((headRev.dropWhile (fun c => c = '/'))).reverse

/-- Models `os.path.basename`: everything after the last path separator. -/
def pyBasename (s : List Char) : List Char :=
  (s.reverse.takeWhile (fun c => c ≠ '/')).reverse

/-- Models `file.FileWatcherTrigger` configuration.  `fnmatch` patterns are
modelled as filename predicates (fnmatch is an external library);
`patterns = []` models `patterns=None` (no filtering). -/
structure FileWatcherTrigger where
  trigger_id : String
  pipeline_name : String
  path : List Char
  patterns : List (List Char → Bool)
  recursive : Bool
  watch_creation : Bool
  watch_modification : Bool

/-- Models `file.FileWatcherTrigger.matches_event`: event-type check, then
`event_path.startswith(self.path)` (a string-prefix check), then — for
non-recursive triggers — `os.path.dirname(event_path) == self.path`,
then the filename-pattern check. -/
def FileWatcherTrigger.matches_event (t : FileWatcherTrigger) (e : FsEvent) : Bool :=
  if e.kind = FsEventKind.created ∧ ¬ t.watch_creation then false
  else if e.kind = FsEventKind.modified ∧ ¬ t.watch_modification then false
  else if e.kind ≠ FsEventKind.created ∧ e.kind ≠ FsEventKind.modified then false
  else
    let event_path := e.src_path
    if ¬ t.path.isPrefixOf event_path then false
    else if ¬ t.recursive ∧ pyDirname event_path ≠ t.path then false
    else if ¬ t.patterns.isEmpty ∧ ¬ t.patterns.any (fun pat => pat (pyBasename event_path)) then false
    else true

/-- Follows the spec's words, for comparison with the code: an event is
located under a watched directory path exactly when its path extends
that path with a separator. -/
def specUnderPath (watched p : List Char) : Bool :=
  (watched ++ ['/']).isPrefixOf p

/-! ## Webhook trigger (`triggers/webhook.py`) -/

/-- An inbound HTTP request as Flask presents it to the handler. -/
structure HttpRequest where
  method : String
  path : String
  args : List (String × String)
  headers : List (String × String)
  body : String
deriving DecidableEq

/-- The response a webhook route returns: HTTP status code, `status`
field and `message` field of the JSON body. -/
structure HttpResponse where
  status : Nat
  status_text : String
  message : String
deriving DecidableEq

/-- Models `webhook.WebhookTrigger`: endpooint configuration plus the slot
holding the data of the most recently matched request. -/
structure WebhookTrigger where
  trigger_id : String
  pipeline_name : String
  endpoint : String
  methods : List String
  triggered_request_data : Option (List (String × String))

/-- The dictionary `WebhookTrigger.set_triggered_request` builds from
the Flask request (`args`/`headers` dictionaries are flattened into the
string-to-string parameter model; JSON parsing is not modelled). -/
def webhookRequestData (req : HttpRequest) : List (String × String) :=
  [("method", req.method), ("endpoint", req.path), ("data", req.body)]
    ++ req.args ++ req.headers

/-- Models `webhook.WebhookTrigger.set_triggered_request`: store the request's
data on the trigger. -/
def WebhookTrigger.set_triggered_request (t : WebhookTrigger) (req : HttpRequest) :
    WebhookTrigger :=
  { t with triggered_request_data := some (webhookRequestData req) }

/-- Models `webhook.WebhookTrigger.get_run_parameters`: base parameters
(`trigger_id`) updated with the stored request data, which is cleared
(one-shot consumption).  Returns the parameters and the new trigger
state. -/
def WebhookTrigger.get_run_parameters (t : WebhookTrigger) :
    List (String × String) × WebhookTrigger :=
  match t.triggered_request_data with
  | some d => ([("trigger_id", t.trigger_id)] ++ d, { t with triggered_request_data := none })
  | none => ([("trigger_id", t.trigger_id)], t)

/-! ## Monitor dispatch (`monitor.py`) -/

/-- What one dispatch did: logged-and-dropped (pipeline not in the
registry), completed run, or caught-and-logged engine failure. -/
inductive DispatchLog where
  | droppedNotFound (pipeline_name : String)
  | completed (ctx : PipelineRunContext)
  | loggedFailure (e : PyError)
deriving DecidableEq

/-- Models `monitor.TriggerMonitor._run_pipeline`: look the pipeline up by
name; if absent, log the error and return.  Otherwise construct a fresh
`PipelineExecutionEngine` and call `run` with the request's parameters
(and an auto-generated run id, modelled by `freshId`); any exception
from the run is caught and logged.  The `Except` result models whether
an exception escapes the method body (the `try`/`except Exception`
around the run means none ever does, which theorem
`monitor_run_pipeline_dispatch` proves). -/
def TriggerMonitor.run_pipeline (pipeline_registry : List (String × Pipeline))
    (freshId : String) (ri : TriggerRunInfo) : Except PyError DispatchLog :=
  match dictGet pipeline_registry ri.pipeline_name with
  | none => .ok (.droppedNotFound ri.pipeline_name)
  | some pipeline =>
    match PipelineExecutionEngine.run pipeline ("run_" ++ freshId) ri.parameters with
    | (_, .ok ctx) => .ok (.completed ctx)
    | (_, .error x) => .ok (.loggedFailure x.1)

/-- The webhook route handler (`view_func` inside
`webhook.create_webhook_app`): store the request's data on the trigger,
build a `TriggerRunInfo` from the trigger's one-shot parameters, call
the dispatcher, and answer 202/"success" when the dispatcher returns,
500/"error" when it raises (only the dispatcher call is inside the
`try`).  Returns the trigger's state after the request together with
the HTTP response. -/
def webhookViewFunc (trigger : WebhookTrigger)
    (runner : TriggerRunInfo → Except PyError DispatchLog) (req : HttpRequest) :
    WebhookTrigger × HttpResponse :=
  let t1 := trigger.set_triggered_request req
  match t1.get_run_parameters with
  | (params, t2) =>
    let run_info : TriggerRunInfo :=
      { pipeline_name := trigger.pipeline_name, parameters := params,
        trigger_id := trigger.trigger_id }
    match runner run_info with
    | .ok _ =>
      (t2, { status := 202, status_text := "success",
             message := "Pipeline '" ++ run_info.pipeline_name ++ "' triggered." })
    | .error _ =>
      (t2, { status := 500, status_text := "error",
             message := "Failed to trigger pipeline." })

/-! ## Webhook app creation and the missing `os` import
(`triggers/webhook.py` lines 1-8 and 60-71, `monitor.py` lines
166-188) -/

/-- The global names bound at the top of `triggers/webhook.py`: its
imports (`logging`; `Optional`, `Dict`, `Any`, `List` from `typing`;
`Flask`, `request`, `jsonify` from `flask`; `BaseTrigger`,
`TriggerRunInfo` from `.base`) and its module-level definitions.  The
module has no `import os`. -/
def webhookModuleGlobals : List String :=
  ["logging", "Optional", "Dict", "Any", "List", "Flask", "request", "jsonify",
   "BaseTrigger", "TriggerRunInfo", "logger", "WebhookTrigger", "create_webhook_app"]

/-- The Flask app value: its name and the registered route paths. -/
structure FlaskApp where
  app_name : String
  routes : List String
deriving DecidableEq

/-- Models `webhook.create_webhook_app`, run under the module's global name
environment (Python resolves a function body's global references in its
defining module's namespace).  Line 69 constructs the app; line 70
(`app.config['SECRET_KEY'] = os.urandom(24)`) evaluates the global name
`os`, raising `NameError` when it is unbound; only then would one route
per registered webhook trigger plus `/_health` be added. -/
def create_webhook_app (globalsEnv : List String)
    (triggers : List (String × WebhookTrigger)) : Except PyError FlaskApp :=
  let app : FlaskApp := { app_name := "pipeline_framework_webhooks", routes := [] }
  if "os" ∈ globalsEnv then
    .ok { app with routes := (triggers.map (fun t => t.2.endpoint)) ++ ["/_health"] }
  else
    .error (.nameError "os")

/-- Models `monitor.TriggerMonitor._start_webhook_server`: if no webhook
trigger is registered, skip (return `None`); else call
`create_webhook_app` (under the webhook module's globals) and start the
server with the resulting app.  `webhookTriggers` is the registry
restricted to its webhook triggers. -/
def TriggerMonitor.start_webhook_server
    (webhookTriggers : List (String × WebhookTrigger)) :
    Except PyError (Option FlaskApp) :=
  if webhookTriggers.isEmpty then
    .ok none
  else
    match create_webhook_app webhookModuleGlobals webhookTriggers with
    | .ok app => .ok (some app)
    | .error e => .error e

/-! ## Concrete instances (example pipelines, triggers, events) -/

def exStepOkA : Step := { name := "a", func := fun _ => .ok 1 }

def exStepOkB : Step := { name := "b", func := fun _ => .ok 2 }

def exStepOkC : Step := { name := "c", func := fun _ => .ok 3 }

def exStepFail : Step := { name := "fail", func := fun _ => .error "boom" }

def exStepSelf : Step := { name := "s", func := fun _ => .ok 9 }

def exEmptyPipeline : Pipeline :=
  { name := "P", steps := [], dependencies := [], reverse_dependencies := [] }

/-- Pipeline `P` with chain a → b → c, all steps succeeding, built
through `add_step`. -/
def exChainPipeline : Pipeline :=
  (((exEmptyPipeline.add_step exStepOkA []).1.add_step exStepOkB ["a"]).1.add_step
    exStepOkC ["b"]).1

/-- Pipeline `P` with chain a → fail → c where `fail` always raises. -/
def exFailPipeline : Pipeline :=
  (((exEmptyPipeline.add_step exStepOkA []).1.add_step exStepFail ["a"]).1.add_step
    exStepOkC ["fail"]).1

/-- Pipeline `P` holding only step a. -/
def exOneStepPipeline : Pipeline :=
  (exEmptyPipeline.add_step exStepOkA []).1

/-- Pipeline `P` whose dependency maps record the two-step cycle
a → b → a (a `Pipeline` value with a multi-hop cycle, which the spec
says is caught only at run time). -/
def exCyclePipeline : Pipeline :=
  { name := "P",
    steps := [("a", exStepOkA), ("b", exStepOkB)],
    dependencies := [("a", ["b"]), ("b", ["a"])],
    reverse_dependencies := [("a", ["b"]), ("b", ["a"])] }

/-- The context state after step `a` of `exFailPipeline` completes. -/
def exCtxAfterA : PipelineRunContext :=
  { run_id := "r1", pipeline_name := "P", results := [("a", 1)], parameters := [] }

def exWebhookTrigger : WebhookTrigger :=
  { trigger_id := "w1", pipeline_name := "P", endpoint := "/hook", methods := ["POST"],
    triggered_request_data := none }

def exRequest : HttpRequest :=
  { method := "POST", path := "/hook", args := [], headers := [], body := "{}" }

def exRunInfo : TriggerRunInfo :=
  { pipeline_name := "P", parameters := [], trigger_id := "t1" }

def exRunInfoMissing : TriggerRunInfo :=
  { pipeline_name := "Q", parameters := [], trigger_id := "t1" }

def exFileTriggerRec : FileWatcherTrigger :=
  { trigger_id := "f1", pipeline_name := "P", path := "/data".toList, patterns := [],
    recursive := true, watch_creation := true, watch_modification := true }

def exFileTriggerNonRec : FileWatcherTrigger :=
  { exFileTriggerRec with recursive := false }

def exEventSibling : FsEvent :=
  { kind := FsEventKind.modified, src_path := "/database/f.txt".toList }

def exEventSubdir : FsEvent :=
  { kind := FsEventKind.modified, src_path := "/data/sub/f.txt".toList }

def exEventDirect : FsEvent :=
  { kind := FsEventKind.modified, src_path := "/data/f.txt".toList }

def exEventOutside : FsEvent :=
  { kind := FsEventKind.modified, src_path := "/tmp/x.txt".toList }

def exCronTrigger : CronTrigger :=
  { trigger_id := "c1", pipeline_name := "P", last_scheduled_fire_time := 0 }

/-! ## Lemmas about the dict model -/

theorem dictGet_mem {α : Type} {d : List (String × α)} {k : String} {v : α}
    (h : dictGet d k = some v) : (k, v) ∈ d := by
  induction d with
  | nil => simp [dictGet] at h
  | cons x rest ih =>
    rw [show dictGet (x :: rest) k = if x.1 = k then some x.2 else dictGet rest k from rfl] at h
    by_cases hk : x.1 = k
    · simp [hk] at h
      refine List.mem_cons.mpr (Or.inl ?_)
      obtain ⟨x1, x2⟩ := x
      simp_all
    · simp [hk] at h
      exact List.mem_cons_of_mem _ (ih h)

theorem dictContains_mem_keys {α : Type} {d : List (String × α)} {k : String}
    (h : dictContains d k = true) : k ∈ d.map Prod.fst := by
  unfold dictContains at h
  cases hv : dictGet d k with
  | none => rw [hv] at h; simp at h
  | some v => exact List.mem_map.mpr ⟨(k, v), dictGet_mem hv, rfl⟩

theorem dictGet_dictSet_self {α : Type} (d : List (String × α)) (k : String) (v : α) :
    dictGet (dictSet d k v) k = some v := by
  induction d with
  | nil => simp [dictSet, dictGet]
  | cons x rest ih =>
    by_cases hk : x.1 = k
    · simp [dictSet, hk, dictGet]
    · simp [dictSet, hk, dictGet, ih]

theorem dictGet_dictSet_ne {α : Type} (d : List (String × α)) (k k' : String) (v : α)
    (h : k ≠ k') : dictGet (dictSet d k v) k' = dictGet d k' := by
  induction d with
  | nil => simp [dictSet, dictGet, h]
  | cons x rest ih =>
    by_cases hk : x.1 = k
    · simp [dictSet, hk, dictGet, h]
    · simp only [dictSet, if_neg hk]
      by_cases hk' : x.1 = k'
      · simp [dictGet, hk']
      · simp [dictGet, hk', ih]

theorem dictContains_dictSet_self {α : Type} (d : List (String × α)) (k : String) (v : α) :
    dictContains (dictSet d k v) k = true := by
  unfold dictContains
  rw [dictGet_dictSet_self]
  rfl

theorem dictContains_dictSet_of_contains {α : Type} {d : List (String × α)} {k' : String}
    (k : String) (v : α) (h : dictContains d k' = true) :
    dictContains (dictSet d k v) k' = true := by
  by_cases hk : k = k'
  · subst hk; exact dictContains_dictSet_self d k v
  · unfold dictContains at *
    rw [dictGet_dictSet_ne d k k' v hk]
    exact h

theorem dictSet_map_fst_of_not_mem {α : Type} {d : List (String × α)} {k : String} (v : α)
    (h : k ∉ d.map Prod.fst) : (dictSet d k v).map Prod.fst = d.map Prod.fst ++ [k] := by
  induction d with
  | nil => simp [dictSet]
  | cons x rest ih =>
    simp only [List.map_cons, List.mem_cons] at h
    push_neg at h
    rw [show dictSet (x :: rest) k v
          = if x.1 = k then (x.1, v) :: rest else x :: dictSet rest k v from rfl]
    rw [if_neg (fun hh : x.1 = k => h.1 hh.symm)]
    simp [ih h.2]

theorem mem_dictSet_self {α : Type} (d : List (String × α)) (k : String) (v : α) :
    (k, v) ∈ dictSet d k v := by
  induction d with
  | nil => simp [dictSet]
  | cons x rest ih =>
    by_cases hk : x.1 = k
    · simp only [dictSet, if_pos hk]
      refine List.mem_cons.mpr (Or.inl ?_)
      rw [hk]
    · simp only [dictSet, if_neg hk]
      exact List.mem_cons_of_mem _ ih

/-! ## Cycles: edge sequences and the cut construction -/

theorem edgeSeq_append_left (edges : List (String × String)) :
    ∀ l₁ l₂, edgeSeq edges (l₁ ++ l₂) = true → edgeSeq edges l₁ = true
  | [], _, _ => rfl
  | [_], _, _ => rfl
  | a :: b :: t, l₂, h => by
    rw [show (a :: b :: t) ++ l₂ = a :: b :: (t ++ l₂) from rfl] at h
    unfold edgeSeq at h ⊢
    rw [Bool.and_eq_true] at h ⊢
    exact ⟨h.1, edgeSeq_append_left edges (b :: t) l₂ h.2⟩

theorem edgeSeq_cons_cons {edges : List (String × String)} {a b : String} {t : List String}
    (h : edgeSeq edges (a :: b :: t) = true) :
    (a, b) ∈ edges ∧ edgeSeq edges (b :: t) = true := by
  unfold edgeSeq at h
  rw [Bool.and_eq_true, decide_eq_true_eq] at h
  exact h

/-- Every element of `l` has a predecessor in `x :: l` along `edges`. -/
theorem edgeSeq_pred (edges : List (String × String)) :
    ∀ (x : String) (l : List String), edgeSeq edges (x :: l) = true →
      ∀ n ∈ l, ∃ m ∈ x :: l, (m, n) ∈ edges := by
  intro x l
  induction l generalizing x with
  | nil => intro _ n hn; simp at hn
  | cons b t ih =>
    intro h n hn
    obtain ⟨hxb, hrest⟩ := edgeSeq_cons_cons h
    rcases List.mem_cons.mp hn with rfl | hnt
    · exact ⟨x, List.mem_cons_self x _, hxb⟩
    · obtain ⟨m, hm, hedge⟩ := ih b hrest n hnt
      exact ⟨m, List.mem_cons_of_mem x hm, hedge⟩

theorem edgeSeq_cons_cons_eq (edges : List (String × String)) (a b : String)
    (t : List String) :
    edgeSeq edges (a :: b :: t) = (decide ((a, b) ∈ edges) && edgeSeq edges (b :: t)) :=
  rfl

theorem edgeSeq_cons_of_ne_nil {edges : List (String × String)} {x : String}
    {r : List String} (hr : r ≠ []) :
    edgeSeq edges (x :: r) = true ↔
      ((x, r.headD "") ∈ edges ∧ edgeSeq edges r = true) := by
  cases r with
  | nil => exact absurd rfl hr
  | cons b t =>
    rw [edgeSeq_cons_cons_eq, Bool.and_eq_true, decide_eq_true_eq]
    exact Iff.rfl

theorem edgeSeq_snoc_snoc (edges : List (String × String)) :
    ∀ (q : List String) (a b : String), edgeSeq edges (q ++ [a]) = true →
      (a, b) ∈ edges → edgeSeq edges (q ++ [a, b]) = true := by
  intro q
  induction q with
  | nil =>
    intro a b _ hab
    rw [List.nil_append, edgeSeq_cons_cons_eq]
    simp [hab, edgeSeq]
  | cons x q' ih =>
    intro a b h hab
    rw [List.cons_append] at h ⊢
    have hne : q' ++ [a] ≠ [] := by simp
    have hne2 : q' ++ [a, b] ≠ [] := by simp
    rw [edgeSeq_cons_of_ne_nil hne] at h
    rw [edgeSeq_cons_of_ne_nil hne2]
    have hhead : (q' ++ [a, b]).headD "" = (q' ++ [a]).headD "" := by
      cases q' <;> rfl
    rw [hhead]
    exact ⟨h.1, ih a b h.2 hab⟩

theorem cutAt_append (m : String) : ∀ l : List String, ∃ r, l = cutAt m l ++ r := by
  intro l
  induction l with
  | nil => exact ⟨[], rfl⟩
  | cons x rest ih =>
    by_cases hx : x = m
    · exact ⟨rest, by simp [cutAt, hx]⟩
    · obtain ⟨r, hr⟩ := ih
      exact ⟨r, by rw [cutAt, if_neg hx, List.cons_append]; exact congrArg _ hr⟩

theorem cutAt_cons (m x : String) (t : List String) :
    ∃ t', cutAt m (x :: t) = x :: t' := by
  by_cases hx : x = m
  · exact ⟨[], by simp [cutAt, hx]⟩
  · exact ⟨cutAt m t, by simp [cutAt, hx]⟩

theorem cutAt_last (m : String) : ∀ l : List String, m ∈ l →
    ∃ q, cutAt m l = q ++ [m] := by
  intro l
  induction l with
  | nil => intro h; simp at h
  | cons x rest ih =>
    intro h
    by_cases hx : x = m
    · subst hx
      exact ⟨[], by simp [cutAt]⟩
    · rcases List.mem_cons.mp h with rfl | hm
      · exact absurd rfl hx
      · obtain ⟨q, hq⟩ := ih hm
        exact ⟨x :: q, by rw [cutAt, if_neg hx, hq, List.cons_append]⟩

/-- The cut of a walk whose head is the successor of `m` is an
elementary cycle. -/
theorem cycle_of_walk {edges : List (String × String)} {h : String} {t : List String}
    (hnd : (h :: t).Nodup) (hseq : edgeSeq edges (h :: t) = true)
    {m : String} (hm : m ∈ h :: t) (hedge : (m, h) ∈ edges) :
    isCycleB edges (cutAt m (h :: t)) = true ∧ ∀ x ∈ cutAt m (h :: t), x ∈ h :: t := by
  obtain ⟨r, hr⟩ := cutAt_append m (h :: t)
  have hsubset : ∀ x ∈ cutAt m (h :: t), x ∈ h :: t := by
    intro x hx
    rw [hr]
    exact List.mem_append_left r hx
  have hcnd : (cutAt m (h :: t)).Nodup := by
    rw [hr] at hnd
    exact hnd.of_append_left
  have hcseq : edgeSeq edges (cutAt m (h :: t)) = true := by
    apply edgeSeq_append_left edges (cutAt m (h :: t)) r
    rw [← hr]
    exact hseq
  obtain ⟨t', ht'⟩ := cutAt_cons m h t
  obtain ⟨q, hq⟩ := cutAt_last m (h :: t) hm
  refine ⟨?_, hsubset⟩
  rw [ht']
  unfold isCycleB
  rw [Bool.and_eq_true, decide_eq_true_eq]
  constructor
  · rw [← ht']; exact hcnd
  · rw [← ht']
    rw [hq]
    rw [show q ++ [m] ++ [h] = q ++ [m, h] by simp]
    apply edgeSeq_snoc_snoc edges q m h
    · rw [← hq]; exact hcseq
    · exact hedge

/-- Every node of an elementary cycle has a predecessor inside the
cycle. -/
theorem cycle_pred {edges : List (String × String)} {c : List String}
    (hc : isCycleB edges c = true) : ∀ n ∈ c, ∃ m ∈ c, (m, n) ∈ edges := by
  cases c with
  | nil => simp [isCycleB] at hc
  | cons h t =>
    unfold isCycleB at hc
    rw [Bool.and_eq_true] at hc
    have hseq : edgeSeq edges (h :: (t ++ [h])) = true := by
      have := hc.2
      rwa [List.cons_append] at this
    intro n hn
    have hn' : n ∈ t ++ [h] := by
      rcases List.mem_cons.mp hn with rfl | hnt
      · exact List.mem_append_right t (List.mem_singleton.mpr rfl)
      · exact List.mem_append_left _ hnt
    obtain ⟨m, hm, hedge⟩ := edgeSeq_pred edges h (t ++ [h]) hseq n hn'
    refine ⟨m, ?_, hedge⟩
    rcases List.mem_cons.mp hm with rfl | hmt
    · exact List.mem_cons_self m t
    · rcases List.mem_append.mp hmt with hmt' | hmh
      · exact List.mem_cons_of_mem h hmt'
      · rw [List.mem_singleton.mp hmh]
        exact List.mem_cons_self h t

theorem cycle_ne_nil {edges : List (String × String)} {c : List String}
    (hc : isCycleB edges c = true) : c ≠ [] := by
  cases c with
  | nil => simp [isCycleB] at hc
  | cons h t => simp

theorem cycle_nodup {edges : List (String × String)} {c : List String}
    (hc : isCycleB edges c = true) : c.Nodup := by
  cases c with
  | nil => simp [isCycleB] at hc
  | cons h t =>
    unfold isCycleB at hc
    rw [Bool.and_eq_true, decide_eq_true_eq] at hc
    exact hc.1

/-! ## Kahn's algorithm: correctness lemmas -/

theorem kahnAux_succ (edges : List (String × String)) (fuel : Nat) (remaining : List String) :
    kahnAux edges (fuel + 1) remaining =
      match remaining.find? (noIncoming remaining edges) with
      | none => []
      | some n => n :: kahnAux edges fuel (remaining.erase n) :=
  rfl

theorem noIncoming_spec {remaining : List String} {edges : List (String × String)}
    {n : String} (h : noIncoming remaining edges n = true) :
    ∀ m ∈ remaining, (m, n) ∉ edges := by
  intro m hm hmem
  unfold noIncoming at h
  rw [Bool.not_eq_true', List.any_eq_false] at h
  exact absurd (decide_eq_true hmem) (h m hm)

theorem not_noIncoming_spec {remaining : List String} {edges : List (String × String)}
    {n : String} (h : ¬ noIncoming remaining edges n = true) :
    ∃ m ∈ remaining, (m, n) ∈ edges := by
  unfold noIncoming at h
  rw [Bool.not_eq_true, Bool.not_eq_false', List.any_eq_true] at h
  obtain ⟨m, hm, hdec⟩ := h
  exact ⟨m, hm, of_decide_eq_true hdec⟩

theorem kahnAux_subset (edges : List (String × String)) :
    ∀ (fuel : Nat) (remaining : List String),
      ∀ x ∈ kahnAux edges fuel remaining, x ∈ remaining := by
  intro fuel
  induction fuel with
  | zero => intro remaining x hx; simp [kahnAux] at hx
  | succ fuel ih =>
    intro remaining x hx
    rw [kahnAux_succ] at hx
    cases hfind : remaining.find? (noIncoming remaining edges) with
    | none => rw [hfind] at hx; simp at hx
    | some n =>
      rw [hfind] at hx
      rcases List.mem_cons.mp hx with rfl | hx'
      · exact List.mem_of_find?_eq_some hfind
      · exact List.mem_of_mem_erase (ih (remaining.erase n) x hx')

theorem kahnAux_nodup (edges : List (String × String)) :
    ∀ (fuel : Nat) (remaining : List String), remaining.Nodup →
      (kahnAux edges fuel remaining).Nodup := by
  intro fuel
  induction fuel with
  | zero => intro remaining _; simp [kahnAux]
  | succ fuel ih =>
    intro remaining hnd
    rw [kahnAux_succ]
    cases hfind : remaining.find? (noIncoming remaining edges) with
    | none => simp
    | some n =>
      refine List.nodup_cons.mpr ⟨?_, ih (remaining.erase n) (hnd.erase n)⟩
      intro hmem
      have := kahnAux_subset edges fuel (remaining.erase n) n hmem
      exact absurd ((hnd.mem_erase_iff).mp this).1 (by simp)

theorem kahnAux_complete (edges : List (String × String)) :
    ∀ (fuel : Nat) (remaining : List String),
      (kahnAux edges fuel remaining).length = remaining.length →
      ∀ x ∈ remaining, x ∈ kahnAux edges fuel remaining := by
  intro fuel
  induction fuel with
  | zero =>
    intro remaining h x hx
    simp only [kahnAux, List.length_nil] at h
    have hrem : remaining = [] := List.length_eq_zero.mp h.symm
    rw [hrem] at hx
    simp at hx
  | succ fuel ih =>
    intro remaining h x hx
    rw [kahnAux_succ] at h ⊢
    cases hfind : remaining.find? (noIncoming remaining edges) with
    | none =>
      rw [hfind] at h
      simp only [List.length_nil] at h
      have : remaining = [] := List.length_eq_zero.mp h.symm
      simp [this] at hx
    | some n =>
      rw [hfind] at h
      have hn : n ∈ remaining := List.mem_of_find?_eq_some hfind
      have herase : (remaining.erase n).length + 1 = remaining.length :=
        List.length_erase_add_one hn
      have h' : (kahnAux edges fuel (remaining.erase n)).length + 1 = remaining.length := by
        simpa using h
      show x ∈ n :: kahnAux edges fuel (remaining.erase n)
      by_cases hx' : x = n
      · rw [hx']; exact List.mem_cons_self n _
      · have hxe : x ∈ remaining.erase n := (List.mem_erase_of_ne hx').mpr hx
        exact List.mem_cons_of_mem n (ih (remaining.erase n) (by omega) x hxe)

theorem kahnAux_sorted (edges : List (String × String)) :
    ∀ (fuel : Nat) (remaining : List String), remaining.Nodup →
      (∀ x ∈ remaining, x ∈ kahnAux edges fuel remaining) →
      ∀ a b : String, (a, b) ∈ edges → a ∈ remaining → b ∈ remaining →
        (kahnAux edges fuel remaining).indexOf a < (kahnAux edges fuel remaining).indexOf b := by
  intro fuel
  induction fuel with
  | zero =>
    intro remaining _ hcomp a b _ ha _
    exact absurd (hcomp a ha) (by simp [kahnAux])
  | succ fuel ih =>
    intro remaining hnd hcomp a b hab ha hb
    rw [kahnAux_succ] at hcomp ⊢
    cases hfind : remaining.find? (noIncoming remaining edges) with
    | none =>
      rw [hfind] at hcomp
      exact absurd (hcomp a ha) (by simp)
    | some n =>
      rw [hfind] at hcomp
      show List.indexOf a (n :: kahnAux edges fuel (remaining.erase n))
          < List.indexOf b (n :: kahnAux edges fuel (remaining.erase n))
      have hcomp2 : ∀ x ∈ remaining, x ∈ n :: kahnAux edges fuel (remaining.erase n) := by
        intro x hx
        simpa using hcomp x hx
      have hni : noIncoming remaining edges n = true := List.find?_some hfind
      have hbn : b ≠ n := by
        intro hbn
        exact noIncoming_spec hni a ha (hbn ▸ hab)
      by_cases han : a = n
      · rw [han, List.indexOf_cons_self]
        rw [List.indexOf_cons_ne _ (fun h => hbn h.symm)]
        exact Nat.succ_pos _
      · have ha' : a ∈ remaining.erase n := (List.mem_erase_of_ne han).mpr ha
        have hb' : b ∈ remaining.erase n := (List.mem_erase_of_ne hbn).mpr hb
        have hcomp' : ∀ x ∈ remaining.erase n, x ∈ kahnAux edges fuel (remaining.erase n) := by
          intro x hx
          have hxr : x ∈ remaining := List.mem_of_mem_erase hx
          have hxn : x ≠ n := ((hnd.mem_erase_iff).mp hx).1
          rcases List.mem_cons.mp (hcomp2 x hxr) with h1 | h2
          · exact absurd h1 hxn
          · exact h2
        have hlt := ih (remaining.erase n) (hnd.erase n) hcomp' a b hab ha' hb'
        rw [List.indexOf_cons_ne _ (fun h => han h.symm)]
        rw [List.indexOf_cons_ne _ (fun h => hbn h.symm)]
        omega

theorem kahnAux_dag_or_stuck (edges : List (String × String)) :
    ∀ (fuel : Nat) (remaining : List String), remaining.length ≤ fuel →
      (kahnAux edges fuel remaining).length = remaining.length ∨
      ∃ R, R ≠ [] ∧ (∀ x ∈ R, x ∈ remaining) ∧ ∀ n ∈ R, ∃ m ∈ R, (m, n) ∈ edges := by
  intro fuel
  induction fuel with
  | zero =>
    intro remaining hlen
    left
    have : remaining = [] := List.length_eq_zero.mp (Nat.le_zero.mp hlen)
    simp [this, kahnAux]
  | succ fuel ih =>
    intro remaining hlen
    rw [kahnAux_succ]
    cases hfind : remaining.find? (noIncoming remaining edges) with
    | none =>
      by_cases hrem : remaining = []
      · left
        simp [hrem]
      · right
        refine ⟨remaining, hrem, fun x hx => hx, ?_⟩
        intro n hn
        have hno := List.find?_eq_none.mp hfind n hn
        exact not_noIncoming_spec hno
    | some n =>
      have hn : n ∈ remaining := List.mem_of_find?_eq_some hfind
      have herase : (remaining.erase n).length + 1 = remaining.length :=
        List.length_erase_add_one hn
      rcases ih (remaining.erase n) (by omega) with h1 | h2
      · left
        simp only [List.length_cons, h1]
        omega
      · right
        obtain ⟨R, hR1, hR2, hR3⟩ := h2
        exact ⟨R, hR1, fun x hx => List.mem_of_mem_erase (hR2 x hx), hR3⟩

/-! ## Cycles versus the acyclicity check -/

theorem walk_to_cycle {edges : List (String × String)} {R : List String}
    (hR : ∀ n ∈ R, ∃ m ∈ R, (m, n) ∈ edges) :
    ∀ (k : Nat) (path : List String), path ≠ [] → path.Nodup →
      (∀ x ∈ path, x ∈ R) → edgeSeq edges path = true →
      R.length + 1 ≤ path.length + k →
      ∃ c, isCycleB edges c = true ∧ ∀ x ∈ c, x ∈ R := by
  intro k
  induction k with
  | zero =>
    intro path _ hnd hsub _ hlen
    exfalso
    have : path.length ≤ R.length := (hnd.subperm hsub).length_le
    omega
  | succ k ih =>
    intro path hne hnd hsub hseq hlen
    cases path with
    | nil => exact absurd rfl hne
    | cons h t =>
      obtain ⟨m, hmR, hedge⟩ := hR h (hsub h (List.mem_cons_self h t))
      by_cases hm : m ∈ h :: t
      · obtain ⟨hc, hcs⟩ := cycle_of_walk hnd hseq hm hedge
        exact ⟨_, hc, fun x hx => hsub x (hcs x hx)⟩
      · apply ih (m :: h :: t) (by simp) (List.nodup_cons.mpr ⟨hm, hnd⟩)
        · intro x hx
          rcases List.mem_cons.mp hx with rfl | hx'
          · exact hmR
          · exact hsub x hx'
        · rw [edgeSeq_cons_cons_eq, Bool.and_eq_true, decide_eq_true_eq]
          exact ⟨hedge, hseq⟩
        · simp only [List.length_cons] at hlen ⊢
          omega

theorem stuck_has_cycle {edges : List (String × String)} {R : List String}
    (hne : R ≠ []) (hR : ∀ n ∈ R, ∃ m ∈ R, (m, n) ∈ edges) :
    ∃ c, isCycleB edges c = true ∧ ∀ x ∈ c, x ∈ R := by
  obtain ⟨r, hr⟩ := List.exists_mem_of_ne_nil R hne
  apply walk_to_cycle hR R.length [r] (by simp) (by simp)
  · intro x hx
    rw [List.mem_singleton.mp hx]
    exact hr
  · rfl
  · simp only [List.length_cons, List.length_nil]
    omega

theorem kahnAux_cycle_missing (edges : List (String × String)) {c : List String}
    (hc : isCycleB edges c = true) :
    ∀ (fuel : Nat) (remaining : List String), (∀ x ∈ c, x ∈ remaining) →
      ∃ x ∈ c, x ∉ kahnAux edges fuel remaining := by
  intro fuel
  induction fuel with
  | zero =>
    intro remaining _
    obtain ⟨x, hx⟩ := List.exists_mem_of_ne_nil c (cycle_ne_nil hc)
    exact ⟨x, hx, by simp [kahnAux]⟩
  | succ fuel ih =>
    intro remaining hsub
    rw [kahnAux_succ]
    cases hfind : remaining.find? (noIncoming remaining edges) with
    | none =>
      obtain ⟨x, hx⟩ := List.exists_mem_of_ne_nil c (cycle_ne_nil hc)
      exact ⟨x, hx, by simp⟩
    | some n =>
      have hni : noIncoming remaining edges n = true := List.find?_some hfind
      have hnotc : n ∉ c := by
        intro hnc
        obtain ⟨m, hmc, hedge⟩ := cycle_pred hc n hnc
        exact noIncoming_spec hni m (hsub m hmc) hedge
      have hsub' : ∀ x ∈ c, x ∈ remaining.erase n := by
        intro x hx
        have hxn : x ≠ n := by
          intro he
          rw [he] at hx
          exact hnotc hx
        exact (List.mem_erase_of_ne hxn).mpr (hsub x hx)
      obtain ⟨x, hxc, hxout⟩ := ih (remaining.erase n) hsub'
      refine ⟨x, hxc, ?_⟩
      intro hmem
      rcases List.mem_cons.mp hmem with rfl | h2
      · exact hnotc hxc
      · exact hxout h2

/-- A directed cycle among the nodes refutes the acyclicity check
(`networkx.is_directed_acyclic_graph` returns `False` on a graph with a
cycle). -/
theorem cycle_not_dag {nodes : List String} {edges : List (String × String)}
    {c : List String} (hc : isCycleB edges c = true) (hsub : ∀ x ∈ c, x ∈ nodes) :
    isDirectedAcyclicGraph nodes edges = false := by
  by_contra hdag
  rw [Bool.not_eq_false] at hdag
  unfold isDirectedAcyclicGraph topologicalSort at hdag
  rw [decide_eq_true_eq] at hdag
  have hcomp := kahnAux_complete edges nodes.length nodes hdag
  obtain ⟨x, hxc, hxout⟩ := kahnAux_cycle_missing edges hc nodes.length nodes hsub
  exact hxout (hcomp x (hsub x hxc))

/-- A graph with no directed cycle passes the acyclicity check
(`networkx.is_directed_acyclic_graph` returns `True` on a DAG). -/
theorem acyclic_dag {nodes : List String} {edges : List (String × String)}
    (h : ∀ c, isCycleB edges c = false) :
    isDirectedAcyclicGraph nodes edges = true := by
  unfold isDirectedAcyclicGraph topologicalSort
  rw [decide_eq_true_eq]
  rcases kahnAux_dag_or_stuck edges nodes.length nodes (le_refl _) with h1 | h2
  · exact h1
  · obtain ⟨R, hR1, _, hR3⟩ := h2
    obtain ⟨cc, hcc, _⟩ := stuck_has_cycle hR1 hR3
    rw [h cc] at hcc
    exact absurd hcc (by simp)

/-- Completeness of the modelled `nx.simple_cycles`: every elementary
cycle over the graph's nodes is enumerated. -/
theorem mem_simple_cycles {nodes : List String} {edges : List (String × String)}
    {c : List String} (hc : isCycleB edges c = true) (hsub : ∀ x ∈ c, x ∈ nodes) :
    c ∈ simple_cycles nodes edges := by
  unfold simple_cycles
  rw [List.mem_filter]
  refine ⟨?_, hc⟩
  obtain ⟨s, hs1, hs2⟩ := (cycle_nodup hc).subperm hsub
  rw [List.mem_flatMap]
  exact ⟨s, List.mem_sublists.mpr hs2, List.mem_permutations'.mpr hs1.symm⟩

/-! ## Engine lemmas -/

theorem edges_fst_mem_nodes {p : Pipeline} {d s : String} (h : (d, s) ∈ p.edges) :
    d ∈ p.nodes := by
  unfold Pipeline.edges at h
  rw [List.mem_flatMap] at h
  obtain ⟨x, _, hmem⟩ := h
  rw [List.mem_map] at hmem
  obtain ⟨d', hd', heq⟩ := hmem
  rw [List.mem_filter] at hd'
  have : d' = d := congrArg Prod.fst heq
  exact this ▸ dictContains_mem_keys hd'.2

theorem edges_snd_mem_nodes {p : Pipeline} (hwf : p.wf) {d s : String}
    (h : (d, s) ∈ p.edges) : s ∈ p.nodes := by
  unfold Pipeline.edges at h
  rw [List.mem_flatMap] at h
  obtain ⟨x, hx, hmem⟩ := h
  rw [List.mem_map] at hmem
  obtain ⟨d', _, heq⟩ := hmem
  have : x.1 = s := congrArg Prod.snd heq
  exact this ▸ hwf.2.2 x hx

/-- In a well-formed pipeline every node of a dependency cycle is a
registered step. -/
theorem cycle_subset_nodes {p : Pipeline} (hwf : p.wf) {c : List String}
    (hc : isCycleB p.edges c = true) : ∀ x ∈ c, x ∈ p.nodes := by
  intro x hx
  obtain ⟨m, _, hedge⟩ := cycle_pred hc x hx
  exact edges_snd_mem_nodes hwf hedge

theorem get_execution_order_ok_of_acyclic {p : Pipeline}
    (h : ∀ c, isCycleB p.edges c = false) :
    PipelineExecutionEngine.get_execution_order p
      = .ok (topologicalSort p.nodes p.edges) := by
  unfold PipelineExecutionEngine.get_execution_order
  simp [acyclic_dag h]

theorem get_execution_order_error_of_cycle {p : Pipeline} {c : List String}
    (hc : isCycleB p.edges c = true) (hsub : ∀ x ∈ c, x ∈ p.nodes) :
    PipelineExecutionEngine.get_execution_order p
      = .error (.cyclicDependency p.name (simple_cycles p.nodes p.edges)) := by
  unfold PipelineExecutionEngine.get_execution_order
  simp [cycle_not_dag hc hsub]

theorem runSteps_append (p : Pipeline) :
    ∀ (l₁ l₂ : List String) (ctx : PipelineRunContext) (tr : List String),
      runSteps p (l₁ ++ l₂) ctx tr =
        match runSteps p l₁ ctx tr with
        | (tr', .ok ctx') => runSteps p l₂ ctx' tr'
        | (tr', .error e) => (tr', .error e) := by
  intro l₁
  induction l₁ with
  | nil => intro l₂ ctx tr; rfl
  | cons nm rest ih =>
    intro l₂ ctx tr
    rw [List.cons_append]
    cases hstep : p.get_step nm with
    | none => simp [runSteps, hstep]
    | some step =>
      cases hex : step.execute ctx with
      | ok x => simp [runSteps, hstep, hex, ih]
      | error e => simp [runSteps, hstep, hex]

theorem runSteps_ok_spec (p : Pipeline) (hwf : p.wf) :
    ∀ (l : List String) (ctx : PipelineRunContext) (tr tr' : List String)
      (ctx' : PipelineRunContext),
      runSteps p l ctx tr = (tr', .ok ctx') →
      (∀ n ∈ l, n ∉ ctx.results.map Prod.fst) → l.Nodup →
      tr' = tr ++ l ∧ ctx'.results.map Prod.fst = ctx.results.map Prod.fst ++ l ∧
        ctx'.run_id = ctx.run_id ∧ ctx'.pipeline_name = ctx.pipeline_name ∧
        ctx'.parameters = ctx.parameters := by
  intro l
  induction l with
  | nil =>
    intro ctx tr tr' ctx' h _ _
    simp only [runSteps, Prod.mk.injEq] at h
    obtain ⟨h1, h2⟩ := h
    have h2' : ctx = ctx' := by
      cases h2'' : (Except.ok ctx : Except (PyError × PipelineRunContext) PipelineRunContext) <;>
        simp_all
    subst h1 h2'
    simp
  | cons nm rest ih =>
    intro ctx tr tr' ctx' h hfresh hnd
    cases hstep : p.get_step nm with
    | none => simp [runSteps, hstep] at h
    | some step =>
      cases hex : step.execute ctx with
      | error e => simp [runSteps, hstep, hex] at h
      | ok x =>
        have hrec : runSteps p rest x.2 (tr ++ [nm]) = (tr', .ok ctx') := by
          rw [show runSteps p (nm :: rest) ctx tr
                = runSteps p rest x.2 (tr ++ [nm]) from by simp [runSteps, hstep, hex]] at h
          exact h
        have hname : step.name = nm := hwf.2.1 (nm, step) (dictGet_mem hstep)
        have hx2 : x.2.results = dictSet ctx.results nm x.1 ∧ x.2.run_id = ctx.run_id ∧
            x.2.pipeline_name = ctx.pipeline_name ∧ x.2.parameters = ctx.parameters := by
          unfold Step.execute at hex
          cases hfv : step.func ctx with
          | ok v =>
            rw [hfv] at hex
            simp only [Except.ok.injEq] at hex
            rw [← hex]
            simp [hname]
          | error e2 => rw [hfv] at hex; simp at hex
        have hfreshnm : nm ∉ ctx.results.map Prod.fst := hfresh nm (List.mem_cons_self nm rest)
        have hkeys : x.2.results.map Prod.fst = ctx.results.map Prod.fst ++ [nm] := by
          rw [hx2.1]
          exact dictSet_map_fst_of_not_mem x.1 hfreshnm
        have hfresh' : ∀ n ∈ rest, n ∉ x.2.results.map Prod.fst := by
          intro n hn
          rw [hkeys]
          rw [List.mem_append]
          push_neg
          refine ⟨hfresh n (List.mem_cons_of_mem nm hn), ?_⟩
          rw [List.mem_singleton]
          intro he
          rw [he] at hn
          exact absurd hn (List.nodup_cons.mp hnd).1
        obtain ⟨ih1, ih2, ih3, ih4, ih5⟩ :=
          ih x.2 (tr ++ [nm]) tr' ctx' hrec hfresh' (List.nodup_cons.mp hnd).2
        refine ⟨by rw [ih1]; simp, ?_, ih3.trans hx2.2.1, ih4.trans hx2.2.2.1,
          ih5.trans hx2.2.2.2⟩
        rw [ih2, hkeys]
        simp

/-- When the order computation succeeds, the graph passed the
acyclicity check and the order is the topological sort. -/
theorem get_execution_order_ok_inv {p : Pipeline} {ord : List String}
    (h : PipelineExecutionEngine.get_execution_order p = .ok ord) :
    isDirectedAcyclicGraph p.nodes p.edges = true ∧
      ord = topologicalSort p.nodes p.edges := by
  unfold PipelineExecutionEngine.get_execution_order at h
  by_cases hdag : isDirectedAcyclicGraph p.nodes p.edges = true
  · rw [if_pos hdag] at h
    simp only [Except.ok.injEq] at h
    exact ⟨hdag, h.symm⟩
  · rw [if_neg hdag] at h
    simp at h

theorem addRevEdges_none (stepName : String) (steps : List (String × Step)) :
    ∀ (deps : List String) (rev : List (String × List String)),
      (∀ d ∈ deps, dictContains steps d = true) →
      (addRevEdges stepName steps deps rev).2 = none := by
  intro deps
  induction deps with
  | nil => intro rev _; rfl
  | cons d rest ih =>
    intro rev h
    unfold addRevEdges
    rw [if_pos (h d (List.mem_cons_self d rest))]
    exact ih _ (fun d' hd' => h d' (List.mem_cons_of_mem d hd'))

theorem isCycleB_singleton {edges : List (String × String)} {n : String}
    (h : (n, n) ∈ edges) : isCycleB edges [n] = true := by
  simp [isCycleB, edgeSeq, h]

theorem add_step_not_dup {p : Pipeline} {step : Step} {deps : List String}
    (hfresh : dictContains p.steps step.name = false) :
    p.add_step step deps
      = ({ name := p.name, steps := dictSet p.steps step.name step,
           dependencies := dictSet p.dependencies step.name deps.dedup,
           reverse_dependencies :=
             (addRevEdges step.name (dictSet p.steps step.name step) deps
               (dictSetdefault p.reverse_dependencies step.name [])).1 },
         (addRevEdges step.name (dictSet p.steps step.name step) deps
           (dictSetdefault p.reverse_dependencies step.name [])).2) := by
  unfold Pipeline.add_step
  rw [if_neg (by simp [hfresh])]

/-! ## Claim theorems: dependency resolution and execution -/

/-- C1: for every well-formed pipeline whose dependency graph is
acyclic (no elementary cycle exists), `_get_execution_order` succeeds
and the computed order satisfies: for every recorded dependency edge
dependency→dependent, the index of the dependency is strictly smaller
than the index of the dependent. -/
theorem C1_topological_order (p : Pipeline) (hwf : p.wf)
    (hacyc : simple_cycles p.nodes p.edges = []) :
    ∃ ord, PipelineExecutionEngine.get_execution_order p = .ok ord ∧
      ∀ e ∈ p.edges, ord.indexOf e.1 < ord.indexOf e.2 := by
  have hnc : ∀ c, isCycleB p.edges c = false := by
    intro c
    by_contra hcne
    rw [Bool.not_eq_false] at hcne
    have hmem := mem_simple_cycles hcne (cycle_subset_nodes hwf hcne)
    rw [hacyc] at hmem
    simp at hmem
  refine ⟨topologicalSort p.nodes p.edges, get_execution_order_ok_of_acyclic hnc, ?_⟩
  intro e he
  have hdag := @acyclic_dag p.nodes p.edges hnc
  unfold isDirectedAcyclicGraph topologicalSort at hdag
  rw [decide_eq_true_eq] at hdag
  have hcomp := kahnAux_complete p.edges p.nodes.length p.nodes hdag
  obtain ⟨d, s⟩ := e
  exact kahnAux_sorted p.edges p.nodes.length p.nodes hwf.1 hcomp d s he
    (edges_fst_mem_nodes he) (edges_snd_mem_nodes hwf he)

/-- Witness for C1 on the pipeline a → b → c. -/
theorem C1_witness :
    exChainPipeline.wf ∧
    simple_cycles exChainPipeline.nodes exChainPipeline.edges = [] ∧
    ∃ ord, PipelineExecutionEngine.get_execution_order exChainPipeline = .ok ord ∧
      ∀ e ∈ exChainPipeline.edges, ord.indexOf e.1 < ord.indexOf e.2 :=
  ⟨by decide, by decide, C1_topological_order exChainPipeline (by decide) (by decide)⟩

/-- C3: for every well-formed pipeline whose dependency graph contains
a cycle, `run` raises `CyclicDependencyError` carrying every detected
cycle, before any step executes: the trace is empty and the context
still has no results.  The carried list contains every elementary cycle
of the graph. -/
theorem C3_cycle_aborts (p : Pipeline) (hwf : p.wf) (run_id : String)
    (parameters : List (String × String)) (c : List String)
    (hc : isCycleB p.edges c = true) :
    PipelineExecutionEngine.run p run_id parameters
      = ([], .error (.cyclicDependency p.name (simple_cycles p.nodes p.edges),
          initContext p run_id parameters))
    ∧ (initContext p run_id parameters).results = []
    ∧ c ∈ simple_cycles p.nodes p.edges
    ∧ ∀ c', isCycleB p.edges c' = true → c' ∈ simple_cycles p.nodes p.edges := by
  have hsub := cycle_subset_nodes hwf hc
  refine ⟨?_, rfl, mem_simple_cycles hc hsub,
    fun c' hc' => mem_simple_cycles hc' (cycle_subset_nodes hwf hc')⟩
  unfold PipelineExecutionEngine.run
  rw [get_execution_order_error_of_cycle hc hsub]

/-- Witness for C3 on the two-step cycle a → b → a. -/
theorem C3_witness :
    exCyclePipeline.wf ∧ isCycleB exCyclePipeline.edges ["a", "b"] = true ∧
    PipelineExecutionEngine.run exCyclePipeline "r" []
      = ([], .error (.cyclicDependency exCyclePipeline.name
          (simple_cycles exCyclePipeline.nodes exCyclePipeline.edges),
          initContext exCyclePipeline "r" []))
    ∧ ["a", "b"] ∈ simple_cycles exCyclePipeline.nodes exCyclePipeline.edges :=
  ⟨by decide, by decide,
    (C3_cycle_aborts exCyclePipeline (by decide) "r" [] ["a", "b"] (by decide)).1,
    (C3_cycle_aborts exCyclePipeline (by decide) "r" [] ["a", "b"] (by decide)).2.2.1⟩

/-- C10: `add_step` accepts a step that lists its own name in
`depends_on` (the step is inserted into the step map before the
dependency-existence check, so the self-reference is found registered),
and a subsequent `run` raises `CyclicDependencyError` with no step
executed. -/
theorem C10_self_dependency (p : Pipeline) (step : Step) (deps : List String)
    (run_id : String) (parameters : List (String × String))
    (hfresh : dictContains p.steps step.name = false)
    (hself : step.name ∈ deps)
    (hreg : ∀ d ∈ deps, d = step.name ∨ dictContains p.steps d = true) :
    (p.add_step step deps).2 = none ∧
    PipelineExecutionEngine.run (p.add_step step deps).1 run_id parameters
      = ([], .error (.cyclicDependency (p.add_step step deps).1.name
          (simple_cycles (p.add_step step deps).1.nodes (p.add_step step deps).1.edges),
          initContext (p.add_step step deps).1 run_id parameters)) := by
  have hreg' : ∀ d ∈ deps, dictContains (dictSet p.steps step.name step) d = true := by
    intro d hd
    rcases hreg d hd with heq | hcont
    · rw [heq]
      exact dictContains_dictSet_self p.steps step.name step
    · exact dictContains_dictSet_of_contains step.name step hcont
  have hadd := @add_step_not_dup p step deps hfresh
  have herr : (p.add_step step deps).2 = none := by
    rw [hadd]
    exact addRevEdges_none step.name (dictSet p.steps step.name step) deps _ hreg'
  refine ⟨herr, ?_⟩
  have hedge : (step.name, step.name) ∈ (p.add_step step deps).1.edges := by
    rw [hadd]
    show (step.name, step.name) ∈ Pipeline.edges _
    unfold Pipeline.edges
    rw [List.mem_flatMap]
    refine ⟨(step.name, deps.dedup), mem_dictSet_self p.dependencies step.name deps.dedup, ?_⟩
    rw [List.mem_map]
    refine ⟨step.name, ?_, rfl⟩
    rw [List.mem_filter]
    exact ⟨List.mem_dedup.mpr hself, hreg' step.name hself⟩
  have hnode : step.name ∈ (p.add_step step deps).1.nodes := by
    rw [hadd]
    show step.name ∈ List.map Prod.fst (dictSet p.steps step.name step)
    exact List.mem_map.mpr ⟨(step.name, step), mem_dictSet_self p.steps step.name step, rfl⟩
  have hc : isCycleB (p.add_step step deps).1.edges [step.name] = true :=
    isCycleB_singleton hedge
  have hsub : ∀ x ∈ [step.name], x ∈ (p.add_step step deps).1.nodes := by
    intro x hx
    rw [List.mem_singleton.mp hx]
    exact hnode
  unfold PipelineExecutionEngine.run
  rw [get_execution_order_error_of_cycle hc hsub]

/-- Witness for C10: adding a self-dependent step s to the one-step
pipeline succeeds, and running the result aborts with
`CyclicDependencyError` and an empty trace. -/
theorem C10_witness :
    (exOneStepPipeline.add_step exStepSelf ["s"]).2 = none ∧
    PipelineExecutionEngine.run (exOneStepPipeline.add_step exStepSelf ["s"]).1 "r" []
      = ([], .error (.cyclicDependency (exOneStepPipeline.add_step exStepSelf ["s"]).1.name
          (simple_cycles (exOneStepPipeline.add_step exStepSelf ["s"]).1.nodes
            (exOneStepPipeline.add_step exStepSelf ["s"]).1.edges),
          initContext (exOneStepPipeline.add_step exStepSelf ["s"]).1 "r" [])) :=
  C10_self_dependency exOneStepPipeline exStepSelf ["s"] "r" []
    (by decide) (by decide) (by decide)

/-- C2: when the steps before `f` in the computed order all complete
and `f`'s function raises, `run` stops at `f`: the trace is exactly the
completed steps followed by `f`, the raised error is a
`StepExecutionError` carrying `f`'s name and the original exception,
the context's results hold exactly one entry per step completed
strictly before the failure (in order), and no step after `f` in the
order is ever executed. -/
theorem C2_fail_fast (p : Pipeline) (hwf : p.wf) (run_id : String)
    (parameters : List (String × String)) (ord pre post : List String) (f : String)
    (st : Step) (e : String) (tr1 : List String) (ctx1 : PipelineRunContext)
    (hord : PipelineExecutionEngine.get_execution_order p = .ok ord)
    (hsplit : ord = pre ++ f :: post)
    (hpre : runSteps p pre (initContext p run_id parameters) [] = (tr1, .ok ctx1))
    (hstep : p.get_step f = some st)
    (hfail : st.func ctx1 = .error e) :
    PipelineExecutionEngine.run p run_id parameters
      = (pre ++ [f], .error (.stepExecution f e, ctx1))
    ∧ ctx1.results.map Prod.fst = pre
    ∧ ∀ s ∈ post, s ∉ pre ++ [f] := by
  obtain ⟨hdag, hordeq⟩ := get_execution_order_ok_inv hord
  have hordnd : ord.Nodup := by
    rw [hordeq]
    exact kahnAux_nodup p.edges p.nodes.length p.nodes hwf.1
  have hprend : pre.Nodup := by
    rw [hsplit] at hordnd
    exact hordnd.of_append_left
  obtain ⟨htr1, hres, _, _, _⟩ := runSteps_ok_spec p hwf pre
    (initContext p run_id parameters) [] tr1 ctx1 hpre (by intro n _; simp [initContext])
    hprend
  have hname : st.name = f := hwf.2.1 (f, st) (dictGet_mem hstep)
  have hexec : st.execute ctx1 = .error (.stepExecution f e) := by
    unfold Step.execute
    rw [hfail, hname]
  have hrun : PipelineExecutionEngine.run p run_id parameters
      = (pre ++ [f], .error (.stepExecution f e, ctx1)) := by
    unfold PipelineExecutionEngine.run
    rw [hord]
    show runSteps p ord (initContext p run_id parameters) []
        = (pre ++ [f], .error (.stepExecution f e, ctx1))
    rw [hsplit, runSteps_append, hpre]
    show runSteps p (f :: post) ctx1 tr1 = _
    rw [show runSteps p (f :: post) ctx1 tr1
          = (tr1 ++ [f], .error (.stepExecution f e, ctx1)) from by
        simp [runSteps, hstep, hexec]]
    rw [htr1]
    simp
  refine ⟨hrun, by rw [hres]; simp [initContext], ?_⟩
  intro s hs
  rw [hsplit] at hordnd
  have hdisj := List.disjoint_of_nodup_append hordnd
  have hsnotpre : s ∉ pre := fun hmem => hdisj hmem (List.mem_cons_of_mem f hs)
  have hfpost : f ∉ post := (List.nodup_cons.mp hordnd.of_append_right).1
  intro hmem
  rcases List.mem_append.mp hmem with h1 | h2
  · exact hsnotpre h1
  · rw [List.mem_singleton.mp h2] at hs
    exact hfpost hs

/-- Witness for C2 on the pipeline a → fail → c: the run stops at
`fail` with only a's result recorded, and c never executes. -/
theorem C2_witness :
    PipelineExecutionEngine.run exFailPipeline "r1" []
      = (["a", "fail"], .error (.stepExecution "fail" "boom", exCtxAfterA))
    ∧ exCtxAfterA.results.map Prod.fst = ["a"]
    ∧ ∀ s ∈ ["c"], s ∉ ["a"] ++ ["fail"] := by
  have h := C2_fail_fast exFailPipeline (by decide) "r1" [] ["a", "fail", "c"]
    ["a"] ["c"] "fail" exStepFail "boom" ["a"] exCtxAfterA
    rfl rfl rfl rfl rfl
  exact h

/-! ## Claim theorems: cron trigger -/

/-- C4: `CronTrigger.check` returns `None` and leaves the state
unchanged while the current time is before the next scheduled instant
strictly after the last recorded fire; otherwise it returns exactly one
`TriggerRunInfo` for that instant and advances the state to that single
instant (not to the current time); consequently, when the schedule is
strictly increasing, the instant reported by the next fire is strictly
later — no instant is reported twice and a backlog drains one fire per
call. -/
theorem C4_cron_check (sched : Nat → Nat) (t : CronTrigger) (now : Nat) :
    (now < sched t.last_scheduled_fire_time →
      CronTrigger.check sched t now = (none, t))
    ∧ (sched t.last_scheduled_fire_time ≤ now →
      CronTrigger.check sched t now
        = (some { pipeline_name := t.pipeline_name,
                  parameters := [("trigger_id", t.trigger_id),
                                 ("scheduled_fire_time_utc",
                                   toString (sched t.last_scheduled_fire_time))],
                  trigger_id := t.trigger_id },
           { t with last_scheduled_fire_time := sched t.last_scheduled_fire_time }))
    ∧ ((∀ x, x < sched x) → sched t.last_scheduled_fire_time ≤ now →
      sched t.last_scheduled_fire_time
        < sched ((CronTrigger.check sched t now).2.last_scheduled_fire_time)) := by
  refine ⟨?_, ?_, ?_⟩
  · intro h
    simp only [CronTrigger.check]
    rw [if_neg (by omega)]
  · intro h
    simp only [CronTrigger.check]
    rw [if_pos h]
  · intro hmono h
    simp only [CronTrigger.check]
    rw [if_pos h]
    exact hmono _

/-- Witness for C4: an every-60 schedule from instant 0, polled at 30
(no fire) and at 125 (one fire, for instant 60 — not 120 and not 125 —
with the state advanced to 60). -/
theorem C4_witness :
    (CronTrigger.check (fun x => x + 60) exCronTrigger 30 = (none, exCronTrigger))
    ∧ (CronTrigger.check (fun x => x + 60) exCronTrigger 125
        = (some { pipeline_name := exCronTrigger.pipeline_name,
                  parameters := [("trigger_id", exCronTrigger.trigger_id),
                                 ("scheduled_fire_time_utc",
                                   toString ((fun x => x + 60)
                                     exCronTrigger.last_scheduled_fire_time))],
                  trigger_id := exCronTrigger.trigger_id },
           { exCronTrigger with
              last_scheduled_fire_time :=
                (fun x => x + 60) exCronTrigger.last_scheduled_fire_time }))
    ∧ ((fun x => x + 60) exCronTrigger.last_scheduled_fire_time
        < (fun x => x + 60)
            ((CronTrigger.check (fun x => x + 60) exCronTrigger 125).2.last_scheduled_fire_time)) :=
  ⟨(C4_cron_check (fun x => x + 60) exCronTrigger 30).1 (by decide),
   (C4_cron_check (fun x => x + 60) exCronTrigger 125).2.1 (by decide),
   (C4_cron_check (fun x => x + 60) exCronTrigger 125).2.2 (fun x => by omega) (by decide)⟩

/-! ## Claim theorems: add_step -/

theorem mem_keys_dictContains {α : Type} {d : List (String × α)} {k : String}
    (h : k ∈ d.map Prod.fst) : dictContains d k = true := by
  induction d with
  | nil => simp at h
  | cons x rest ih =>
    rw [List.map_cons, List.mem_cons] at h
    unfold dictContains
    rw [show dictGet (x :: rest) k = if x.1 = k then some x.2 else dictGet rest k from rfl]
    by_cases hk : x.1 = k
    · simp [hk]
    · rw [if_neg hk]
      rcases h with h1 | h2
      · exact absurd h1.symm hk
      · exact ih h2

theorem mem_setAdd_self (s : List String) (x : String) : x ∈ setAdd s x := by
  unfold setAdd
  by_cases h : x ∈ s
  · rwa [if_pos h]
  · rw [if_neg h]
    simp

theorem mem_setAdd_of_mem {s : List String} {x : String} (y : String) (h : x ∈ s) :
    x ∈ setAdd s y := by
  unfold setAdd
  by_cases hy : y ∈ s
  · rwa [if_pos hy]
  · rw [if_neg hy]
    exact List.mem_append_left _ h

theorem addRevEdges_mono (stepName : String) (steps : List (String × Step)) :
    ∀ (deps : List String) (rev : List (String × List String)) (d : String),
      stepName ∈ (dictGet rev d).getD [] →
      stepName ∈ (dictGet (addRevEdges stepName steps deps rev).1 d).getD [] := by
  intro deps
  induction deps with
  | nil => intro rev d h; exact h
  | cons dd rest ih =>
    intro rev d h
    unfold addRevEdges
    by_cases hc : dictContains steps dd = true
    · rw [if_pos hc]
      apply ih
      by_cases hdd : dd = d
      · rw [hdd, dictGet_dictSet_self]
        simp only [Option.getD_some]
        exact mem_setAdd_self _ stepName
      · rw [dictGet_dictSet_ne _ _ _ _ hdd]
        exact h
    · rw [if_neg hc]
      exact h

theorem addRevEdges_mem (stepName : String) (steps : List (String × Step)) :
    ∀ (deps : List String) (rev : List (String × List String)),
      (∀ d ∈ deps, dictContains steps d = true) →
      ∀ d ∈ deps, stepName ∈ (dictGet (addRevEdges stepName steps deps rev).1 d).getD [] := by
  intro deps
  induction deps with
  | nil => intro rev _ d hd; simp at hd
  | cons dd rest ih =>
    intro rev hall d hd
    unfold addRevEdges
    rw [if_pos (hall dd (List.mem_cons_self dd rest))]
    rcases List.mem_cons.mp hd with heq | hdrest
    · apply addRevEdges_mono
      rw [heq, dictGet_dictSet_self]
      simp only [Option.getD_some]
      exact mem_setAdd_self _ stepName
    · exact ih _ (fun d' hd' => hall d' (List.mem_cons_of_mem dd hd')) d hdrest

theorem addRevEdges_error (stepName : String) (steps : List (String × Step)) :
    ∀ (ds1 : List String) (rev : List (String × List String)) (d : String)
      (ds2 : List String),
      (∀ d' ∈ ds1, dictContains steps d' = true) → dictContains steps d = false →
      (addRevEdges stepName steps (ds1 ++ d :: ds2) rev).2
        = some (.unknownDependency stepName d) := by
  intro ds1
  induction ds1 with
  | nil =>
    intro rev d ds2 _ hd
    rw [List.nil_append]
    unfold addRevEdges
    rw [if_neg (by simp [hd])]
  | cons x rest ih =>
    intro rev d ds2 hall hd
    rw [List.cons_append]
    unfold addRevEdges
    rw [if_pos (hall x (List.mem_cons_self x rest))]
    exact ih _ d ds2 (fun d' hd' => hall d' (List.mem_cons_of_mem x hd')) hd

/-- Counterexample to C5 as stated: adding step b with the unknown
dependency "zzz" to the one-step pipeline raises the
unknown-dependency error, yet the pipeline's step map has changed — b
was inserted before the dependency check, so the claim that "on either
failure the pipeline's step map and both adjacency maps are unchanged"
is false. -/
theorem C5_counterexample :
    (exOneStepPipeline.add_step exStepOkB ["zzz"]).2
      = some (.unknownDependency "b" "zzz")
    ∧ (exOneStepPipeline.add_step exStepOkB ["zzz"]).1.steps.map Prod.fst
      ≠ exOneStepPipeline.steps.map Prod.fst
    ∧ (exOneStepPipeline.add_step exStepOkB ["zzz"]).1.dependencies
      ≠ exOneStepPipeline.dependencies := by
  refine ⟨by decide, by decide, by decide⟩

/-- C5 (amended): `add_step` fails with the duplicate-name error when
the name is registered, and then the pipeline is returned unchanged; it
fails with the unknown-dependency error at the first `depends_on` name
that is not registered (after the step's own insertion), but by then
the step has already been added to the step map and forward-dependency
map, so the maps are changed on that failure; on success it records the
forward dependency set and a reverse edge from every dependency.  (In
the code both failures raise `ValueError`; the two error kinds are the
two distinct raise sites.) -/
theorem C5_add_step (p : Pipeline) (step : Step) (deps : List String) :
    (dictContains p.steps step.name = true →
      p.add_step step deps = (p, some (.duplicateName step.name)))
    ∧ (dictContains p.steps step.name = false →
      (∀ d ∈ deps, dictContains (dictSet p.steps step.name step) d = true) →
      (p.add_step step deps).2 = none
      ∧ dictGet (p.add_step step deps).1.dependencies step.name = some deps.dedup
      ∧ ∀ d ∈ deps,
          step.name ∈ (dictGet (p.add_step step deps).1.reverse_dependencies d).getD [])
    ∧ (∀ ds1 d ds2, dictContains p.steps step.name = false →
      deps = ds1 ++ d :: ds2 →
      (∀ d' ∈ ds1, dictContains (dictSet p.steps step.name step) d' = true) →
      dictContains (dictSet p.steps step.name step) d = false →
      (p.add_step step deps).2 = some (.unknownDependency step.name d)
      ∧ (p.add_step step deps).1.steps.map Prod.fst
        = p.steps.map Prod.fst ++ [step.name]) := by
  refine ⟨?_, ?_, ?_⟩
  · intro hdup
    unfold Pipeline.add_step
    rw [if_pos hdup]
  · intro hfresh hall
    have hadd := @add_step_not_dup p step deps hfresh
    refine ⟨?_, ?_, ?_⟩
    · rw [hadd]
      exact addRevEdges_none step.name _ deps _ hall
    · rw [hadd]
      exact dictGet_dictSet_self p.dependencies step.name deps.dedup
    · intro d hd
      rw [hadd]
      exact addRevEdges_mem step.name _ deps _ hall d hd
  · intro ds1 d ds2 hfresh hsplit hall hd
    have hadd := @add_step_not_dup p step deps hfresh
    have hnm : step.name ∉ p.steps.map Prod.fst := by
      intro hmem
      rw [mem_keys_dictContains hmem] at hfresh
      exact absurd hfresh (by simp)
    constructor
    · rw [hadd, hsplit]
      exact addRevEdges_error step.name _ ds1 _ d ds2 hall hd
    · rw [hadd]
      exact dictSet_map_fst_of_not_mem step hnm

/-- Witness for C5 (amended): on the one-step pipeline, re-adding a is
rejected as a duplicate with the pipeline unchanged; adding b over
dependency a succeeds recording both edge directions; adding b over
unknown "zzz" fails with the unknown-dependency error while b is
already in the step map. -/
theorem C5_witness :
    (exOneStepPipeline.add_step exStepOkA []
      = (exOneStepPipeline, some (.duplicateName exStepOkA.name)))
    ∧ ((exOneStepPipeline.add_step exStepOkB ["a"]).2 = none
      ∧ dictGet (exOneStepPipeline.add_step exStepOkB ["a"]).1.dependencies
          exStepOkB.name = some ["a"].dedup
      ∧ ∀ d ∈ ["a"],
          exStepOkB.name ∈
            (dictGet (exOneStepPipeline.add_step exStepOkB ["a"]).1.reverse_dependencies
              d).getD [])
    ∧ ((exOneStepPipeline.add_step exStepOkB ["zzz"]).2
        = some (.unknownDependency exStepOkB.name "zzz")
      ∧ (exOneStepPipeline.add_step exStepOkB ["zzz"]).1.steps.map Prod.fst
        = exOneStepPipeline.steps.map Prod.fst ++ [exStepOkB.name]) :=
  ⟨(C5_add_step exOneStepPipeline exStepOkA []).1 (by decide),
   (C5_add_step exOneStepPipeline exStepOkB ["a"]).2.1 (by decide) (by decide),
   (C5_add_step exOneStepPipeline exStepOkB ["zzz"]).2.2 [] "zzz" [] (by decide) rfl
     (by decide) (by decide)⟩

/-! ## Claim theorems: monitor dispatch and webhook handler -/

/-- C7: `_run_pipeline` looks the pipeline up by name: when absent it
logs and drops the request (running nothing, raising nothing); when
present a fresh engine runs with the request's parameters and either a
completed context or a caught, logged failure results — in every case
the method returns normally, never propagating an exception. -/
theorem C7_monitor_dispatch (reg : List (String × Pipeline)) (freshId : String)
    (ri : TriggerRunInfo) :
    (dictGet reg ri.pipeline_name = none →
      TriggerMonitor.run_pipeline reg freshId ri = .ok (.droppedNotFound ri.pipeline_name))
    ∧ (∀ pl, dictGet reg ri.pipeline_name = some pl →
      (∀ tr ctx, PipelineExecutionEngine.run pl ("run_" ++ freshId) ri.parameters
          = (tr, .ok ctx) →
        TriggerMonitor.run_pipeline reg freshId ri = .ok (.completed ctx))
      ∧ (∀ tr err ctxf, PipelineExecutionEngine.run pl ("run_" ++ freshId) ri.parameters
          = (tr, .error (err, ctxf)) →
        TriggerMonitor.run_pipeline reg freshId ri = .ok (.loggedFailure err)))
    ∧ ∃ log, TriggerMonitor.run_pipeline reg freshId ri = .ok log := by
  refine ⟨?_, ?_, ?_⟩
  · intro h
    simp [TriggerMonitor.run_pipeline, h]
  · intro pl hget
    constructor
    · intro tr ctx hrun
      simp [TriggerMonitor.run_pipeline, hget, hrun]
    · intro tr err ctxf hrun
      simp [TriggerMonitor.run_pipeline, hget, hrun]
  · unfold TriggerMonitor.run_pipeline
    cases hget : dictGet reg ri.pipeline_name with
    | none => exact ⟨.droppedNotFound ri.pipeline_name, rfl⟩
    | some pl =>
      cases hrun : PipelineExecutionEngine.run pl ("run_" ++ freshId) ri.parameters with
      | mk tr res =>
        cases res with
        | ok ctx => exact ⟨.completed ctx, by simp [hrun]⟩
        | error x => exact ⟨.loggedFailure x.1, by simp [hrun]⟩

/-- Witness for C7: a missing pipeline is dropped; a present pipeline
runs to completion; a present pipeline whose step fails has the failure
caught and logged. -/
theorem C7_witness :
    TriggerMonitor.run_pipeline [] "u1" exRunInfoMissing
      = .ok (.droppedNotFound exRunInfoMissing.pipeline_name)
    ∧ TriggerMonitor.run_pipeline [("P", exChainPipeline)] "u1" exRunInfo
      = .ok (.completed { run_id := "run_u1", pipeline_name := "P",
                          results := [("a", 1), ("b", 2), ("c", 3)], parameters := [] })
    ∧ TriggerMonitor.run_pipeline [("P", exFailPipeline)] "u1" exRunInfo
      = .ok (.loggedFailure (.stepExecution "fail" "boom")) :=
  ⟨(C7_monitor_dispatch [] "u1" exRunInfoMissing).1 rfl,
   ((C7_monitor_dispatch [("P", exChainPipeline)] "u1" exRunInfo).2.1 exChainPipeline rfl).1
     ["a", "b", "c"]
     { run_id := "run_u1", pipeline_name := "P",
       results := [("a", 1), ("b", 2), ("c", 3)], parameters := [] } rfl,
   ((C7_monitor_dispatch [("P", exFailPipeline)] "u1" exRunInfo).2.1 exFailPipeline rfl).2
     ["a", "fail"] (.stepExecution "fail" "boom")
     { run_id := "run_u1", pipeline_name := "P",
       results := [("a", 1)], parameters := [] } rfl⟩

/-- Counterexample to C6 as stated: wired to the Monitor's dispatcher
(`_run_pipeline`), the webhook response when the target pipeline is
missing from the registry is byte-for-byte the same 202 "success"
response as when the pipeline exists and runs — the handler does not
distinguish "pipeline not found" from "accepted". -/
theorem C6_counterexample :
    dictGet ([] : List (String × Pipeline)) exWebhookTrigger.pipeline_name = none
    ∧ (webhookViewFunc exWebhookTrigger (TriggerMonitor.run_pipeline [] "u1") exRequest).2
      = (webhookViewFunc exWebhookTrigger
          (TriggerMonitor.run_pipeline [("P", exChainPipeline)] "u1") exRequest).2
    ∧ (webhookViewFunc exWebhookTrigger (TriggerMonitor.run_pipeline [] "u1") exRequest).2.status
      = 202 :=
  ⟨rfl, rfl, rfl⟩

/-- C6 (amended): the handler stores the request's data on the trigger
(one-shot — the slot is cleared), builds the RunRequest from the stored
data, dispatches it, and responds only after the dispatch resolves,
distinguishing two outcomes: dispatch returned (202 accepted — which
includes the dispatcher logging and dropping a missing pipeline) and
dispatch raised (500 internal error). -/
theorem C6_webhook_handler (trigger : WebhookTrigger)
    (runner : TriggerRunInfo → Except PyError DispatchLog) (req : HttpRequest) :
    ((∃ l, runner { pipeline_name := trigger.pipeline_name,
                    parameters := ("trigger_id", trigger.trigger_id) :: webhookRequestData req,
                    trigger_id := trigger.trigger_id } = .ok l) →
      webhookViewFunc trigger runner req
        = ({ trigger with triggered_request_data := none },
           { status := 202, status_text := "success",
             message := "Pipeline '" ++ trigger.pipeline_name ++ "' triggered." }))
    ∧ (∀ e2, runner { pipeline_name := trigger.pipeline_name,
                      parameters := ("trigger_id", trigger.trigger_id) :: webhookRequestData req,
                      trigger_id := trigger.trigger_id } = .error e2 →
      webhookViewFunc trigger runner req
        = ({ trigger with triggered_request_data := none },
           { status := 500, status_text := "error",
             message := "Failed to trigger pipeline." })) := by
  have hval : webhookViewFunc trigger runner req
      = (match runner { pipeline_name := trigger.pipeline_name,
                        parameters := ("trigger_id", trigger.trigger_id) :: webhookRequestData req,
                        trigger_id := trigger.trigger_id } with
         | .ok _ =>
           ({ trigger with triggered_request_data := none },
            { status := 202, status_text := "success",
              message := "Pipeline '" ++ trigger.pipeline_name ++ "' triggered." })
         | .error _ =>
           ({ trigger with triggered_request_data := none },
            { status := 500, status_text := "error",
              message := "Failed to trigger pipeline." })) := rfl
  constructor
  · rintro ⟨l, hl⟩
    rw [hval, hl]
  · intro e2 hl
    rw [hval, hl]

/-- Witness for C6 (amended): with the pipeline registered, the
dispatcher returns and the handler answers 202 with the request slot
cleared. -/
theorem C6_witness :
    webhookViewFunc exWebhookTrigger
        (TriggerMonitor.run_pipeline [("P", exChainPipeline)] "u1") exRequest
      = ({ exWebhookTrigger with triggered_request_data := none },
         { status := 202, status_text := "success",
           message := "Pipeline '" ++ exWebhookTrigger.pipeline_name ++ "' triggered." }) :=
  (C6_webhook_handler exWebhookTrigger
      (TriggerMonitor.run_pipeline [("P", exChainPipeline)] "u1") exRequest).1
    ⟨.completed { run_id := "run_u1", pipeline_name := "P",
                  results := [("a", 1), ("b", 2), ("c", 3)],
                  parameters := [("trigger_id", "w1"), ("method", "POST"),
                                 ("endpoint", "/hook"), ("data", "{}")] }, rfl⟩

/-! ## Claim theorems: the missing os import -/

/-- C9: the webhook module never binds the name `os`, so
`create_webhook_app` raises `NameError` at its `os.urandom` line for
every trigger set, and whenever at least one webhook trigger is
registered the monitor's webhook-server setup can never complete the
app-creation branch successfully. -/
theorem C9_missing_os_import (triggers : List (String × WebhookTrigger)) :
    "os" ∉ webhookModuleGlobals
    ∧ create_webhook_app webhookModuleGlobals triggers = .error (.nameError "os")
    ∧ (triggers ≠ [] →
      TriggerMonitor.start_webhook_server triggers = .error (.nameError "os")) := by
  have hos : "os" ∉ webhookModuleGlobals := by decide
  have hcreate : create_webhook_app webhookModuleGlobals triggers
      = .error (.nameError "os") := by
    unfold create_webhook_app
    rw [if_neg hos]
  refine ⟨hos, hcreate, ?_⟩
  intro hne
  cases triggers with
  | nil => exact absurd rfl hne
  | cons a rest =>
    show (match create_webhook_app webhookModuleGlobals (a :: rest) with
          | .ok app => Except.ok (some app)
          | .error e => Except.error e) = .error (.nameError "os")
    rw [hcreate]

/-- Witness for C9: with one registered webhook trigger, server setup
fails with the NameError on `os`. -/
theorem C9_witness :
    "os" ∉ webhookModuleGlobals
    ∧ create_webhook_app webhookModuleGlobals [("w1", exWebhookTrigger)]
      = .error (.nameError "os")
    ∧ TriggerMonitor.start_webhook_server [("w1", exWebhookTrigger)]
      = .error (.nameError "os") :=
  ⟨(C9_missing_os_import [("w1", exWebhookTrigger)]).1,
   (C9_missing_os_import [("w1", exWebhookTrigger)]).2.1,
   (C9_missing_os_import [("w1", exWebhookTrigger)]).2.2 (by simp)⟩

/-! ## Claim theorems: file-watcher matching -/

theorem isPrefixOf_append_self : ∀ (l r : List Char), l.isPrefixOf (l ++ r) = true := by
  intro l
  induction l with
  | nil => intro r; exact List.isPrefixOf_nil_left
  | cons a as ih =>
    intro r
    rw [List.cons_append, List.isPrefixOf_cons₂, beq_self_eq_true, ih]
    rfl

theorem dropWhile_append_all {p : Char → Bool} :
    ∀ (l₁ l₂ : List Char), (∀ x ∈ l₁, p x = true) →
      List.dropWhile p (l₁ ++ l₂) = List.dropWhile p l₂ := by
  intro l₁
  induction l₁ with
  | nil => intro l₂ _; rfl
  | cons a as ih =>
    intro l₂ h
    rw [List.cons_append, List.dropWhile_cons,
      if_pos (h a (List.mem_cons_self a as))]
    exact ih l₂ (fun x hx => h x (List.mem_cons_of_mem a hx))

theorem append_cons_ne_self (base : List Char) (x : Char) (r : List Char) :
    base ++ x :: r ≠ base := by
  intro h
  have hlen := congrArg List.length h
  simp only [List.length_append, List.length_cons] at hlen
  omega

/-- Models `os.path.dirname` of `base/⟨dir⟩/⟨file⟩` — the directory part ends
with a non-separator and the file part contains no separator — is
`base/⟨dir⟩`. -/
theorem pyDirname_spec (base dpre : List Char) (dlast : Char) (fname : List Char)
    (hlast : dlast ≠ '/') (hfname : ∀ x ∈ fname, x ≠ '/') :
    pyDirname (base ++ '/' :: ((dpre ++ [dlast]) ++ '/' :: fname))
      = base ++ '/' :: (dpre ++ [dlast]) := by
  have hrev : (base ++ '/' :: ((dpre ++ [dlast]) ++ '/' :: fname)).reverse
      = fname.reverse ++ '/' :: (dlast :: (dpre.reverse ++ '/' :: base.reverse)) := by
    simp
  have hdrop : List.dropWhile (fun c => c ≠ '/')
        ((base ++ '/' :: ((dpre ++ [dlast]) ++ '/' :: fname)).reverse)
      = '/' :: (dlast :: (dpre.reverse ++ '/' :: base.reverse)) := by
    rw [hrev]
    rw [dropWhile_append_all fname.reverse _ (by
      intro x hx
      rw [decide_eq_true_eq]
      exact hfname x (List.mem_reverse.mp hx))]
    rw [List.dropWhile_cons, if_neg (by simp)]
  have hallneg : ¬ (('/' :: (dlast :: (dpre.reverse ++ '/' :: base.reverse))).all
      (fun c => c = '/') = true) := by
    intro hall
    rw [List.all_eq_true] at hall
    have hd := hall dlast (List.mem_cons_of_mem '/' (List.mem_cons_self dlast _))
    rw [decide_eq_true_eq] at hd
    exact hlast hd
  have hdrop2 : List.dropWhile (fun c => c = '/')
        ('/' :: (dlast :: (dpre.reverse ++ '/' :: base.reverse)))
      = dlast :: (dpre.reverse ++ '/' :: base.reverse) := by
    rw [List.dropWhile_cons, if_pos (by simp), List.dropWhile_cons,
      if_neg (by simp [hlast])]
  simp only [pyDirname]
  rw [hdrop, if_neg hallneg, hdrop2]
  simp

/-- C8 (amended): a non-recursive trigger's `matches_event` returns
`False` for an event located in a subdirectory of its watched path; a
recursive trigger matches any event under its path (subject to its
filename patterns and watched event types); and an event whose
absolute path does not extend the watched path as a string prefix never
matches.  (The code checks the path with `str.startswith`, so a
recursive trigger also matches sibling paths that merely share the
watched path as a string prefix — see the counterexample — which is why
the claim's "events outside the watched path never match" is weakened
to the string-prefix form.) -/
theorem C8_matches_event (t : FileWatcherTrigger) (e : FsEvent) :
    (∀ dpre dlast fname, t.recursive = false →
      e.src_path = t.path ++ '/' :: ((dpre ++ [dlast]) ++ '/' :: fname) →
      dlast ≠ '/' → (∀ x ∈ fname, x ≠ '/') →
      t.matches_event e = false)
    ∧ (∀ rest, t.recursive = true →
      e.src_path = t.path ++ '/' :: rest →
      (e.kind = FsEventKind.created → t.watch_creation = true) →
      (e.kind = FsEventKind.modified → t.watch_modification = true) →
      e.kind ≠ FsEventKind.other →
      (t.patterns.isEmpty = true ∨
        t.patterns.any (fun pat => pat (pyBasename e.src_path)) = true) →
      t.matches_event e = true)
    ∧ (t.path.isPrefixOf e.src_path = false → t.matches_event e = false) := by
  refine ⟨?_, ?_, ?_⟩
  · intro dpre dlast fname hrec hsplit hlast hfname
    have hdir : pyDirname e.src_path ≠ t.path := by
      rw [hsplit, pyDirname_spec t.path dpre dlast fname hlast hfname]
      exact append_cons_ne_self t.path '/' (dpre ++ [dlast])
    have hcond : ¬ t.recursive = true ∧ pyDirname e.src_path ≠ t.path :=
      ⟨by simp [hrec], hdir⟩
    simp only [FileWatcherTrigger.matches_event]
    split_ifs <;> rfl
  · intro rest hrec hsplit hcr hmod hother hpat
    have hpref : t.path.isPrefixOf e.src_path = true := by
      rw [hsplit]
      exact isPrefixOf_append_self t.path ('/' :: rest)
    simp only [FileWatcherTrigger.matches_event]
    rw [if_neg (by
      rintro ⟨hk, hw⟩
      exact hw (hcr hk))]
    rw [if_neg (by
      rintro ⟨hk, hw⟩
      exact hw (hmod hk))]
    rw [if_neg (by
      rintro ⟨hk1, hk2⟩
      cases hk : e.kind with
      | created => exact hk1 hk
      | modified => exact hk2 hk
      | other => exact hother hk)]
    rw [if_neg (fun hn => hn hpref)]
    rw [if_neg (by
      rintro ⟨hr, _⟩
      exact hr hrec)]
    rw [if_neg (by
      rintro ⟨hne, hna⟩
      rcases hpat with hp | hp
      · exact hne hp
      · exact hna hp)]
  · intro hpref
    have hnp : ¬ t.path.isPrefixOf e.src_path = true := by
      rw [hpref]
      simp
    simp only [FileWatcherTrigger.matches_event]
    split_ifs <;> rfl

/-- Counterexample to C8 as stated: the recursive trigger watching
`/data` matches a modification of `/database/f.txt`, an event that is
not under `/data` at all — `startswith` is a plain string-prefix check,
so "events outside the watched path never match" is false. -/
theorem C8_counterexample :
    exFileTriggerRec.matches_event exEventSibling = true
    ∧ specUnderPath exFileTriggerRec.path exEventSibling.src_path = false
    ∧ exEventSibling.src_path ≠ exFileTriggerRec.path := by
  refine ⟨by decide, by decide, by decide⟩

/-- Witness for C8 (amended): the non-recursive `/data` trigger rejects
`/data/sub/f.txt`; the recursive one matches it; neither matches
`/tmp/x.txt`. -/
theorem C8_witness :
    exFileTriggerNonRec.matches_event exEventSubdir = false
    ∧ exFileTriggerRec.matches_event exEventSubdir = true
    ∧ exFileTriggerRec.matches_event exEventOutside = false :=
  ⟨(C8_matches_event exFileTriggerNonRec exEventSubdir).1 "su".toList 'b' "f.txt".toList
     rfl (by decide) (by decide) (by decide),
   (C8_matches_event exFileTriggerRec exEventSubdir).2.1 "sub/f.txt".toList rfl
     (by decide) (by decide) (by decide) (by decide) (Or.inl rfl),
   (C8_matches_event exFileTriggerRec exEventOutside).2.2 (by decide)⟩

end PipelineFramework
